import Mathlib

/-!
Verification development for the tcpp single-header C preprocessor library
(`tcppLibrary.hpp`).  The definitions below are a shallow embedding of the
library's scanner (`Lexer`), macro table and expansion engine, conditional
stack and constant-expression evaluator (`Preprocessor`), translated
function-by-function from the C++ source.  Text is modelled as `List Char`;
`std::string` mutation becomes explicit value passing; the two stateful
classes become the structures `LexerState` and `PPState`.

Modelling conventions, stated once here:
* every C++ loop whose body does not obviously consume input is given an
  explicit fuel argument; running out of fuel sets the `hang` flag, which
  models a run on which the C++ loop would not have terminated;
* undefined behaviour in the source (reading `front()`/`back()` of an empty
  string, `top()` of an empty stack, integer division by zero, out-of-range
  indexing) sets a dedicated flag (`ubLex`, `ubBack`, `ubMisc`) or returns a
  dedicated evaluator result (`EvalRes.divZero`); a state with any flag set
  carries no further meaning, exactly because the C++ run has no defined
  meaning from that point on;
* `TCPP_ASSERT(false)` (which aborts in assertion-enabled builds and is a
  no-op under `NDEBUG`) is modelled by recording `assertHit := true` and
  continuing, i.e. the embedding follows the `NDEBUG` continuation while
  remembering that the assertion fired;
* the include callback is a parameter `resolver : List Char → Bool → Option
  (List Char)` returning the text of the resolved stream; each invocation is
  recorded in the ghost field `resolverCalls` so that theorems can speak
  about whether the host callback was reached;
* evaluator integers are unbounded `Int` (the claims under study never reach
  32-bit overflow, which would be a separate undefined-behaviour concern);
* the diagnostic column field `mPos` of `TToken`, which no code path reads,
  is omitted from the `Token` structure.

The constructor name `REJECT` below renders the source's `REJECT_MACRO`
token kind, and the error name `UNDEFINED_MACRO_ERR` renders the source's
`UNDEFINED_MACRO`; both are renamed for tooling reasons only.
-/

namespace Tcpp

/-- Token kinds, mirroring `enum class E_TOKEN_TYPE` of the source
(`REJECT` stands for the source's `REJECT_MACRO`). -/
inductive ETokenType where
  | IDENTIFIER
  | DEFINE
  | IF
  | ELSE
  | ELIF
  | UNDEF
  | ENDIF
  | INCLUDE
  | DEFINED
  | IFNDEF
  | IFDEF
  | SPACE
  | BLOB
  | OPEN_BRACKET
  | CLOSE_BRACKET
  | COMMA
  | NEWLINE
  | LESS
  | GREATER
  | QUOTES
  | KEYWORD
  | END
  | REJECT
  | STRINGIZE_OP
  | CONCAT_OP
  | NUMBER
  | PLUS
  | MINUS
  | SLASH
  | STAR
  | OR
  | AND
  | AMPERSAND
  | VLINE
  | LSHIFT
  | RSHIFT
  | NOT
  | GE
  | LE
  | EQ
  | NE
  | CUSTOM_DIRECTIVE
  | UNKNOWN
  deriving DecidableEq

/-- One scanned token: kind, raw text and source line, mirroring `TToken`
(the unused diagnostic column `mPos` is omitted). -/
structure Token where
  ttype : ETokenType
  rawView : List Char
  lineId : Nat
  deriving DecidableEq

/-- The end-of-input token `Lexer::mEOFToken`. -/
def eofToken : Token := { ttype := .END, rawView := [], lineId := 0 }

/-- The C locale `isspace` set used by the scanner via `std::isspace`. -/
def cIsSpace (c : Char) : Bool :=
  c = ' ' || c = '\t' || c = '\n' || c = '\x0b' || c = '\x0c' || c = '\r'

/-- `std::isdigit` for the C locale. -/
def cIsDigit (c : Char) : Bool := '0' ≤ c && c ≤ '9'

/-- `std::isalpha` for the C locale. -/
def cIsAlpha (c : Char) : Bool := ('a' ≤ c && c ≤ 'z') || ('A' ≤ c && c ≤ 'Z')

/-- `std::isalnum` for the C locale. -/
def cIsAlnum (c : Char) : Bool := cIsAlpha c || cIsDigit c

/-- The scanner's separator set, the C++ string literal
`",()<>\"+-*/&|!="` in `Lexer::_scanTokens`. -/
def separators : List Char := [',', '(', ')', '<', '>', '"', '+', '-', '*', '/', '&', '|', '!', '=']

/-- The fixed keyword table `keywordsMap` of `Lexer::_scanTokens`. -/
def keywordsList : List (List Char) :=
  ["auto".data, "double".data, "int".data, "struct".data,
   "break".data, "else".data, "long".data, "switch".data,
   "case".data, "enum".data, "register".data, "typedef".data,
   "char".data, "extern".data, "return".data, "union".data,
   "const".data, "float".data, "short".data, "unsigned".data,
   "continue".data, "for".data, "signed".data, "void".data,
   "default".data, "goto".data, "sizeof".data, "volatile".data,
   "do".data, "if".data, "static".data, "while".data]

/-- The directive table `Lexer::mDirectivesTable`, in constructor order
(the order matters: the first entry matching after `#` wins). -/
def directivesTable : List (List Char × ETokenType) :=
  [("define".data, .DEFINE),
   ("ifdef".data, .IFDEF),
   ("ifndef".data, .IFNDEF),
   ("if".data, .IF),
   ("else".data, .ELSE),
   ("elif".data, .ELIF),
   ("undef".data, .UNDEF),
   ("endif".data, .ENDIF),
   ("include".data, .INCLUDE),
   ("defined".data, .DEFINED)]

/-- Test whether `p` is an initial segment of `l` (used to model
`std::string::rfind(pat, 1) == 1` on the text after `#`, and
`rfind(pat, 0) == 0` elsewhere). -/
def leadsWith : List Char → List Char → Bool
  | [], _ => true
  | _ :: _, [] => false
  | p :: ps, c :: cs => p = c && leadsWith ps cs

/-- Index of the first occurrence of the pattern `p` inside `l`, modelling
`std::string::find`. -/
def findSubIdx (p : List Char) : List Char → Option Nat
  | [] => if p = [] then some 0 else none
  | c :: cs =>
    if leadsWith p (c :: cs) then some 0
    else (findSubIdx p cs).map (· + 1)

/-- Index of the first occurrence of character `c`, modelling
`std::string::find_first_of` for a single character. -/
def findCharIdx (c : Char) : List Char → Option Nat
  | [] => none
  | d :: ds => if d = c then some 0 else (findCharIdx c ds).map (· + 1)

/-- `StringInputStream::ReadLine`: the prefix up to and including the first
newline (or the whole remaining text), paired with the rest. -/
def readLine (s : List Char) : List Char × List Char :=
  match findCharIdx '\n' s with
  | none => (s, [])
  | some i => (s.take (i + 1), s.drop (i + 1))

/-- `StringInputStream::HasNextLine`: the remaining text is nonempty. -/
def hasNextLine (s : List Char) : Bool := s ≠ []

/-- Scanner state, mirroring the mutable fields of `class Lexer`:
the lookahead queue, the working line, the current line counter, the
input-stream stack (each stream reduced to its remaining text) and the
registered custom directive names.  The ghost flags record C++ undefined
behaviour (`ubLex`) and loops the C++ would never leave (`hang`). -/
structure LexerState where
  tokensQueue : List Token
  currLine : List Char
  currLineIndex : Nat
  streams : List (List Char)
  customDirectives : List (List Char)
  ubLex : Bool
  hang : Bool
  deriving DecidableEq

/-- `Lexer::_removeSingleLineComment`: truncate at the first `//`. -/
def removeSingleLineComment (line : List Char) : List Char :=
  match findSubIdx ['/', '/'] line with
  | none => line
  | some pos => line.take pos

/-- The trailing whitespace-collapsing pass of `Lexer::_requestSourceLine`
(`std::remove_if` with the `isPrevChWhitespace` stateful predicate): a
space or tab directly preceded by a space or tab is dropped. -/
def collapseWs (line : List Char) : List Char :=
  go false line
where
  /-- One pass with the previous-character-was-whitespace flag. -/
  go : Bool → List Char → List Char
  | _, [] => []
  | prev, c :: cs =>
    let ws := c = ' ' || c = '\t'
    if ws && prev then go ws cs else c :: go ws cs

/-- The backslash-joining loop of `Lexer::_requestSourceLine`.  While the
line contains a backslash: if the active stream has another line, the text
from the character before the backslash onward is replaced by that next
line (single-line comments already removed); otherwise the line is
truncated at the backslash.  Fuel models the bounded number of line pulls;
the `hang` flag would only be set on inputs the C++ loop also never
finishes (there are none, the loop always terminates, so generous fuel is
supplied by the callers). -/
def joinBackslash : Nat → List Char → LexerState → List Char × LexerState
  | 0, line, ls =>
    (match findCharIdx '\\' line with
     | none => (line, ls)
     | some _ => (line, { ls with hang := true }))
  | n + 1, line, ls =>
    match findCharIdx '\\' line with
    | none => (line, ls)
    | some pos =>
      match ls.streams with
      | [] => (line, { ls with ubLex := true })
      | top :: rest =>
        if hasNextLine top then
          let r := readLine top
          let next := removeSingleLineComment r.1
          let keep := if pos = 0 then 0 else pos - 1
          joinBackslash n (line.take keep ++ next)
            { ls with streams := r.2 :: rest, currLineIndex := ls.currLineIndex + 1 }
        else
          (line.take pos, ls)

/-- `Lexer::_requestSourceLine`: read one physical line from the active
stream, strip the single-line comment, join continuation lines and
collapse repeated whitespace.  Reading with an empty stream stack models
the source's null-pointer dereference and sets `ubLex`. -/
def requestSourceLine (fuel : Nat) (ls : LexerState) : List Char × LexerState :=
  match ls.streams with
  | [] => ([], { ls with ubLex := true })
  | top :: rest =>
    if hasNextLine top then
      let r := readLine top
      let line := removeSingleLineComment r.1
      let ls1 : LexerState :=
        { ls with streams := r.2 :: rest, currLineIndex := ls.currLineIndex + 1 }
      let j := joinBackslash fuel line ls1
      (collapseWs j.1, j.2)
    else
      ([], ls)

/-- The `enterCommentBlock` recursive state of
`Lexer::_removeMultiLineComments`: drop `/*`, then consume characters
(requesting further source lines at end of line, and recursing on a nested
`/*`) until a `*/`, which is dropped as well. -/
def enterCommentBlock : Nat → List Char → LexerState → List Char × LexerState
  | 0, input, ls => (input, { ls with hang := true })
  | fuel + 1, input, ls => loop fuel (input.drop 2) ls
where
  /-- The scanning loop inside a comment block. -/
  loop : Nat → List Char → LexerState → List Char × LexerState
  | 0, input, ls => (input, { ls with hang := true })
  | fuel + 1, input, ls =>
    if leadsWith ['*', '/'] input || input = [] then
      (input.drop 2, ls)
    else
      let input1 := input.drop 1
      if leadsWith ['/', '*'] input1 then
        let r := enterCommentBlock fuel input1 ls
        if r.1 = [] then
          let q := requestSourceLine fuel r.2
          loop fuel q.1 q.2
        else
          loop fuel r.1 r.2
      else if input1 = [] then
        let q := requestSourceLine fuel ls
        loop fuel q.1 q.2
      else
        loop fuel input1 ls

/-- `Lexer::_removeMultiLineComments`: text before the first `/*` is kept,
the comment block is consumed (possibly across lines), and the remainder
returned by `enterCommentBlock` is appended. -/
def removeMultiLineComments (fuel : Nat) (input : List Char) (ls : LexerState) :
    List Char × LexerState :=
  match findSubIdx ['/', '*'] input with
  | none => (input, ls)
  | some pos =>
    let r := enterCommentBlock fuel (input.drop pos) ls
    (input.take pos ++ r.1, r.2)

/-- `Lexer::_scanSeparatorTokens`: the single- and two-character
punctuation tokens.  Returns the token and the rest of the line (the
leading character `ch` has already been consumed by the caller). -/
def scanSeparatorTokens (ch : Char) (rest : List Char) (lineIdx : Nat) :
    Token × List Char :=
  match ch with
  | ',' => ({ ttype := .COMMA, rawView := [','], lineId := lineIdx }, rest)
  | '(' => ({ ttype := .OPEN_BRACKET, rawView := ['('], lineId := lineIdx }, rest)
  | ')' => ({ ttype := .CLOSE_BRACKET, rawView := [')'], lineId := lineIdx }, rest)
  | '<' =>
    match rest with
    | '<' :: r => ({ ttype := .LSHIFT, rawView := ['<', '<'], lineId := lineIdx }, r)
    | '=' :: r => ({ ttype := .LE, rawView := ['<', '='], lineId := lineIdx }, r)
    | _ => ({ ttype := .LESS, rawView := ['<'], lineId := lineIdx }, rest)
  | '>' =>
    match rest with
    | '>' :: r => ({ ttype := .RSHIFT, rawView := ['>', '>'], lineId := lineIdx }, r)
    | '=' :: r => ({ ttype := .GE, rawView := ['>', '='], lineId := lineIdx }, r)
    | _ => ({ ttype := .GREATER, rawView := ['>'], lineId := lineIdx }, rest)
  | '"' => ({ ttype := .QUOTES, rawView := ['"'], lineId := lineIdx }, rest)
  | '+' => ({ ttype := .PLUS, rawView := ['+'], lineId := lineIdx }, rest)
  | '-' => ({ ttype := .MINUS, rawView := ['-'], lineId := lineIdx }, rest)
  | '*' => ({ ttype := .STAR, rawView := ['*'], lineId := lineIdx }, rest)
  | '/' => ({ ttype := .SLASH, rawView := ['/'], lineId := lineIdx }, rest)
  | '&' =>
    match rest with
    | '&' :: r => ({ ttype := .AND, rawView := ['&', '&'], lineId := lineIdx }, r)
    | _ => ({ ttype := .AMPERSAND, rawView := ['&'], lineId := lineIdx }, rest)
  | '|' =>
    match rest with
    | '|' :: r => ({ ttype := .OR, rawView := ['|', '|'], lineId := lineIdx }, r)
    | _ => ({ ttype := .VLINE, rawView := ['|'], lineId := lineIdx }, rest)
  | '!' =>
    match rest with
    | '=' :: r => ({ ttype := .NE, rawView := ['!', '='], lineId := lineIdx }, r)
    | _ => ({ ttype := .NOT, rawView := ['!'], lineId := lineIdx }, rest)
  | '=' =>
    match rest with
    | '=' :: r => ({ ttype := .EQ, rawView := ['=', '='], lineId := lineIdx }, r)
    | _ => ({ ttype := .BLOB, rawView := ['='], lineId := lineIdx }, rest)
  | _ => (eofToken, rest)

/-- Result of one `Lexer::_scanTokens` invocation: a produced token with
tokens pushed to the front of the queue and the rest of the line, or the
end-of-line fall-through that pops the stream, or the undefined read of
`inputLine.front()` after a lone trailing `0` digit. -/
inductive ScanRes where
  | tok (pushedFront : List Token) (t : Token) (rest : List Char)
  | eol
  | ubZero
  deriving DecidableEq

/-- The built-in directive matching loop of `Lexer::_scanTokens`
(`inputLine.rfind(dir, 1) == 1` holds exactly when the directive text
starts right after the `#`). -/
def matchBuiltinDirs (lineIdx : Nat) (rest : List Char) :
    List (List Char × ETokenType) → Option (Token × List Char)
  | [] => none
  | (name, ty) :: more =>
    if leadsWith name rest then
      some ({ ttype := ty, rawView := [], lineId := lineIdx }, rest.drop name.length)
    else
      matchBuiltinDirs lineIdx rest more

/-- The custom-directive matching loop that follows the built-in table. -/
def matchCustomDirs (lineIdx : Nat) (rest : List Char) :
    List (List Char) → Option (Token × List Char)
  | [] => none
  | c :: more =>
    if leadsWith c rest then
      some ({ ttype := .CUSTOM_DIRECTIVE, rawView := c, lineId := lineIdx }, rest.drop c.length)
    else
      matchCustomDirs lineIdx rest more

/-- Both directive-matching loops in sequence. -/
def matchDirective (lineIdx : Nat) (rest : List Char)
    (table : List (List Char × ETokenType)) (custom : List (List Char)) :
    Option (Token × List Char) :=
  match matchBuiltinDirs lineIdx rest table with
  | some r => some r
  | none => matchCustomDirs lineIdx rest custom

/-- `Lexer::_scanTokens`: consume characters from the working line until
one token is produced, accumulating unclassified characters into the
running blob `currStr` exactly as the C++ loop does.  In the number
branches the count of characters to erase lives in a `uint8_t` in the
source, so only `length % 256` characters are dropped from the line even
though the token's raw text received them all. -/
def scanTokensAux (lineIdx : Nat) (customDirs : List (List Char)) :
    List Char → List Char → ScanRes
  | [], currStr =>
    if currStr ≠ [] then
      .tok [] { ttype := .BLOB, rawView := currStr, lineId := lineIdx } []
    else
      .eol
  | c :: rest, currStr =>
    if c = '\n' then
      if currStr ≠ [] then
        .tok [] { ttype := .BLOB, rawView := currStr, lineId := lineIdx } (c :: rest)
      else
        .tok [] { ttype := .NEWLINE, rawView := ['\n'], lineId := lineIdx } rest
    else if cIsSpace c then
      if currStr ≠ [] then
        .tok [] { ttype := .BLOB, rawView := currStr, lineId := lineIdx } (c :: rest)
      else
        .tok [] { ttype := .SPACE, rawView := [' '], lineId := lineIdx } rest
    else if c = '#' then
      if currStr ≠ [] then
        .tok [] { ttype := .BLOB, rawView := currStr, lineId := lineIdx } (c :: rest)
      else
        match matchDirective lineIdx rest directivesTable customDirs with
        | some (t, r) => .tok [] t r
        | none =>
          match rest with
          | [] => scanTokensAux lineIdx customDirs rest (currStr ++ ['#'])
          | '#' :: r2 =>
            .tok [] { ttype := .CONCAT_OP, rawView := [], lineId := lineIdx } r2
          | d :: _ =>
            if d ≠ ' ' then
              .tok [] { ttype := .STRINGIZE_OP, rawView := [], lineId := lineIdx } rest
            else
              .tok [] { ttype := .BLOB, rawView := ['#'], lineId := lineIdx } rest
    else if cIsDigit c then
      if currStr ≠ [] then
        .tok [] { ttype := .BLOB, rawView := currStr, lineId := lineIdx } (c :: rest)
      else if c = '0' then
        match rest with
        | [] => .ubZero
        | r1 :: rrest =>
          if r1 = 'x' || cIsDigit r1 then
            let ds := rrest.takeWhile (fun d => cIsDigit d)
            .tok [] { ttype := .NUMBER, rawView := '0' :: r1 :: ds, lineId := lineIdx }
              (rrest.drop (ds.length % 256))
          else
            .tok [] { ttype := .NUMBER, rawView := ['0'], lineId := lineIdx } rest
      else
        let ds := (c :: rest).takeWhile (fun d => cIsDigit d)
        .tok [] { ttype := .NUMBER, rawView := ds, lineId := lineIdx }
          ((c :: rest).drop (ds.length % 256))
    else if c = '_' || cIsAlpha c then
      if currStr ≠ [] then
        .tok [] { ttype := .BLOB, rawView := currStr, lineId := lineIdx } (c :: rest)
      else
        let ident := (c :: rest).takeWhile (fun d => cIsAlnum d || d = '_')
        let ty : ETokenType :=
          if keywordsList.contains ident then .KEYWORD else .IDENTIFIER
        .tok [] { ttype := ty, rawView := ident, lineId := lineIdx }
          ((c :: rest).drop ident.length)
    else if separators.contains c then
      let r := scanSeparatorTokens c rest lineIdx
      if currStr ≠ [] then
        .tok [r.1] { ttype := .BLOB, rawView := currStr, lineId := lineIdx } r.2
      else
        .tok [] r.1 r.2
    else
      scanTokensAux lineIdx customDirs rest (currStr ++ [c])

/-- `Lexer::GetNextToken`: pop from the lookahead queue if possible,
request a line when the working buffer is empty (end token on an exhausted
stack), strip multi-line comments, then scan; the end-of-line fall-through
in `_scanTokens` pops the active stream and retries on the next one. -/
def getNextTokenF : Nat → LexerState → Token × LexerState
  | 0, ls => (eofToken, { ls with hang := true })
  | fuel + 1, ls =>
    match ls.tokensQueue with
    | t :: rest => (t, { ls with tokensQueue := rest })
    | [] =>
      let p :=
        if ls.currLine = [] then requestSourceLine (fuel + 1) ls
        else (ls.currLine, ls)
      if p.1 = [] then
        (eofToken, { p.2 with currLine := [] })
      else
        let q := removeMultiLineComments (fuel + 1) p.1 p.2
        let ls2 := q.2
        match scanTokensAux ls2.currLineIndex ls2.customDirectives q.1 [] with
        | .tok pushed t rest =>
          (t, { ls2 with currLine := rest, tokensQueue := pushed ++ ls2.tokensQueue })
        | .eol =>
          let ls3 := { ls2 with currLine := [], streams := ls2.streams.tail }
          if ls3.streams ≠ [] then
            getNextTokenF fuel ls3
          else
            (eofToken, ls3)
        | .ubZero =>
          (eofToken, { ls2 with currLine := [], ubLex := true })

/-- Total number of characters buffered in the scanner (working line plus
all stacked streams), used only to size fuel. -/
def lexChars (ls : LexerState) : Nat :=
  ls.currLine.length + (ls.streams.map (fun s => s.length)).sum

/-- Generous fuel bound for one `GetNextToken` call: every internal loop
of the scanner consumes a character, a line or a stream per iteration. -/
def lexFuel (ls : LexerState) : Nat :=
  4 * lexChars ls + 2 * ls.streams.length + ls.tokensQueue.length + 8

/-- The scanner's public `GetNextToken`, with fuel chosen from the state
size; on every input on which the C++ scanner terminates (it always does)
the fuel is sufficient and the `hang` flag stays false. -/
def lexNext (ls : LexerState) : Token × LexerState :=
  getNextTokenF (lexFuel ls) ls

/-- `Lexer::HasNextToken`: the active stream still has a line, or the
working buffer or the lookahead queue is nonempty. -/
def hasNextTokenB (ls : LexerState) : Bool :=
  (match ls.streams with
   | [] => false
   | top :: _ => hasNextLine top) || ls.currLine ≠ [] || ls.tokensQueue ≠ []

/-- `Lexer::AppendFront`: prepend replacement tokens to the queue. -/
def appendFront (tokens : List Token) (ls : LexerState) : LexerState :=
  { ls with tokensQueue := tokens ++ ls.tokensQueue }

/-- `Lexer::PushStream`. -/
def pushStream (content : List Char) (ls : LexerState) : LexerState :=
  { ls with streams := content :: ls.streams }

/-- `Lexer::PopStream` (a no-op on an empty stack, as in the source). -/
def popStream (ls : LexerState) : LexerState :=
  { ls with streams := ls.streams.tail }

/-- The scanner state `Lexer`'s constructor builds for a given root input
text. -/
def initLexer (input : List Char) : LexerState :=
  { tokensQueue := [], currLine := [], currLineIndex := 0,
    streams := [input], customDirectives := [], ubLex := false, hang := false }

/-- One macro-table entry, mirroring `TMacroDesc`: name, parameter names
(empty for an object-like macro) and replacement body. -/
structure TMacroDesc where
  mName : List Char
  mArgsNames : List (List Char)
  mValue : List Token
  deriving DecidableEq

/-- The error taxonomy `E_ERROR_TYPE` (the constructor
`UNDEFINED_MACRO_ERR` renders the source's `UNDEFINED_MACRO`). -/
inductive EErrorType where
  | UNEXPECTED_TOKEN
  | UNBALANCED_ENDIF
  | INVALID_MACRO_DEFINITION
  | MACRO_ALREADY_DEFINED
  | INCONSISTENT_MACRO_ARITY
  | UNDEFINED_MACRO_ERR
  | INVALID_INCLUDE_DIRECTIVE
  | UNEXPECTED_END_OF_INCLUDE_PATH
  | ANOTHER_ELSE_BLOCK_FOUND
  | ELIF_BLOCK_AFTER_ELSE_FOUND
  | UNDEFINED_DIRECTIVE
  deriving DecidableEq

/-- One conditional frame, mirroring `Preprocessor::TIfStackEntry`: the
source structure carries exactly these two flags. -/
structure TIfStackEntry where
  mShouldBeSkipped : Bool
  mHasElseBeenFound : Bool
  deriving DecidableEq

/-- Result of the constant-expression evaluator: a defined value, the
undefined integer division by zero the source performs unguarded, an
undefined `front()` read, or exhaustion of the fuel that models one of the
evaluator's non-consuming (hence non-terminating) operator loops. -/
inductive EvalRes where
  | ok (v : Int)
  | divZero
  | ubEval
  | fuelOut
  deriving DecidableEq

/-- The integer reading of a number token's raw text, modelling the
`std::stoi` call in `evalPrimary` on the decimal-digit prefix (scanner
number tokens always start with a digit). -/
def stoiChars (cs : List Char) : Int :=
  Int.ofNat (go 0 cs)
where
  /-- Accumulate the leading decimal digits. -/
  go : Nat → List Char → Nat
  | acc, [] => acc
  | acc, c :: r => if cIsDigit c then go (acc * 10 + (c.toNat - '0'.toNat)) r else acc

/-- Membership of a name in the symbol table, the
`std::find_if(mSymTable...)` comparison by `mName`. -/
def symContains (symTable : List TMacroDesc) (name : List Char) : Bool :=
  symTable.any (fun m => m.mName = name)

/-- The `evalPrimary` lambda of `Preprocessor::_evaluateExpression`: an
identifier directly followed by `(` goes to the `evalCall` stub, which
returns `0` without consuming anything; a plain identifier evaluates to
its symbol-table membership; a number is read with `stoi`; anything else
yields `0` without consuming. -/
def evalPrimary (symTable : List TMacroDesc) (ts : List Token) : EvalRes × List Token :=
  match ts with
  | [] => (.ubEval, [])
  | t :: rest =>
    match t.ttype with
    | .IDENTIFIER =>
      match rest with
      | t1 :: _ =>
        if t1.ttype = .OPEN_BRACKET then
          (.ok 0, t :: rest)
        else
          (.ok (if symContains symTable t.rawView then 1 else 0), rest)
      | [] => (.ok (if symContains symTable t.rawView then 1 else 0), rest)
    | .NUMBER => (.ok (stoiChars t.rawView), rest)
    | _ => (.ok 0, t :: rest)

/-- The `evalUnary` lambda: evaluate a primary, then look at (without
consuming) the next token; a `-` negates and a `!` logically negates the
already-computed result, exactly as the postfix-flavoured source does. -/
def evalUnary (symTable : List TMacroDesc) (ts : List Token) : EvalRes × List Token :=
  let p := evalPrimary symTable ts
  match p.1 with
  | .ok v =>
    match p.2 with
    | [] => (.ubEval, p.2)
    | t :: _ =>
      match t.ttype with
      | .MINUS => (.ok (-v), p.2)
      | .NOT => (.ok (if v = 0 then 1 else 0), p.2)
      | _ => (.ok v, p.2)
  | _ => p

/-- The `while` loop of `evalMultiplication`.  The operator token is never
consumed by the source, so an iterating loop either hits the unguarded
division (`divZero` when the right operand is `0` — and the right operand
of an iterating loop is always the non-consuming `evalUnary` of the
operator token itself) or spins forever (`fuelOut`). -/
def evalMulLoop (symTable : List TMacroDesc) : Nat → Int → List Token → EvalRes × List Token
  | _, _, [] => (.ubEval, [])
  | fuel, acc, t :: rest =>
    if t.ttype = .STAR || t.ttype = .SLASH then
      match fuel with
      | 0 => (.fuelOut, t :: rest)
      | n + 1 =>
        let u := evalUnary symTable (t :: rest)
        match u.1 with
        | .ok v =>
          if t.ttype = .STAR then
            evalMulLoop symTable n (acc * v) u.2
          else if v = 0 then
            (.divZero, u.2)
          else
            evalMulLoop symTable n (Int.tdiv acc v) u.2
        | _ => u
    else
      (.ok acc, t :: rest)

/-- The `evalMultiplication` lambda. -/
def evalMultiplication (symTable : List TMacroDesc) (fuel : Nat) (ts : List Token) :
    EvalRes × List Token :=
  let u := evalUnary symTable ts
  match u.1 with
  | .ok v => evalMulLoop symTable fuel v u.2
  | _ => u

/-- The `while` loop of `evalAddition` (operator tokens again never
consumed). -/
def evalAddLoop (symTable : List TMacroDesc) : Nat → Int → List Token → EvalRes × List Token
  | _, _, [] => (.ubEval, [])
  | fuel, acc, t :: rest =>
    if t.ttype = .PLUS || t.ttype = .MINUS then
      match fuel with
      | 0 => (.fuelOut, t :: rest)
      | n + 1 =>
        let u := evalMultiplication symTable n (t :: rest)
        match u.1 with
        | .ok v =>
          if t.ttype = .PLUS then evalAddLoop symTable n (acc + v) u.2
          else evalAddLoop symTable n (acc - v) u.2
        | _ => u
    else
      (.ok acc, t :: rest)

/-- The `evalAddition` lambda. -/
def evalAddition (symTable : List TMacroDesc) (fuel : Nat) (ts : List Token) :
    EvalRes × List Token :=
  let u := evalMultiplication symTable fuel ts
  match u.1 with
  | .ok v => evalAddLoop symTable fuel v u.2
  | _ => u

/-- The `while` loop of `evalComparison`. -/
def evalCmpLoop (symTable : List TMacroDesc) : Nat → Int → List Token → EvalRes × List Token
  | _, _, [] => (.ubEval, [])
  | fuel, acc, t :: rest =>
    if t.ttype = .LESS || t.ttype = .GREATER || t.ttype = .LE || t.ttype = .GE then
      match fuel with
      | 0 => (.fuelOut, t :: rest)
      | n + 1 =>
        let u := evalAddition symTable n (t :: rest)
        match u.1 with
        | .ok v =>
          let b : Bool :=
            match t.ttype with
            | .LESS => acc < v
            | .GREATER => v < acc
            | .LE => acc ≤ v
            | _ => v ≤ acc
          evalCmpLoop symTable n (if b then 1 else 0) u.2
        | _ => u
    else
      (.ok acc, t :: rest)

/-- The `evalComparison` lambda. -/
def evalComparison (symTable : List TMacroDesc) (fuel : Nat) (ts : List Token) :
    EvalRes × List Token :=
  let u := evalAddition symTable fuel ts
  match u.1 with
  | .ok v => evalCmpLoop symTable fuel v u.2
  | _ => u

/-- The `while` loop of `evalEquality`. -/
def evalEqLoop (symTable : List TMacroDesc) : Nat → Int → List Token → EvalRes × List Token
  | _, _, [] => (.ubEval, [])
  | fuel, acc, t :: rest =>
    if t.ttype = .EQ || t.ttype = .NE then
      match fuel with
      | 0 => (.fuelOut, t :: rest)
      | n + 1 =>
        let u := evalComparison symTable n (t :: rest)
        match u.1 with
        | .ok v =>
          let b : Bool := if t.ttype = .EQ then acc = v else acc ≠ v
          evalEqLoop symTable n (if b then 1 else 0) u.2
        | _ => u
    else
      (.ok acc, t :: rest)

/-- The `evalEquality` lambda. -/
def evalEquality (symTable : List TMacroDesc) (fuel : Nat) (ts : List Token) :
    EvalRes × List Token :=
  let u := evalComparison symTable fuel ts
  match u.1 with
  | .ok v => evalEqLoop symTable fuel v u.2
  | _ => u

/-- The `while` loop of `evalAndExpr`; `result && evalEquality()`
short-circuits, so a zero accumulator repeats without consuming. -/
def evalAndLoop (symTable : List TMacroDesc) : Nat → Int → List Token → EvalRes × List Token
  | _, _, [] => (.ubEval, [])
  | fuel, acc, t :: rest =>
    if t.ttype = .AND then
      match fuel with
      | 0 => (.fuelOut, t :: rest)
      | n + 1 =>
        if acc = 0 then
          evalAndLoop symTable n 0 (t :: rest)
        else
          let u := evalEquality symTable n (t :: rest)
          match u.1 with
          | .ok v => evalAndLoop symTable n (if v = 0 then 0 else 1) u.2
          | _ => u
    else
      (.ok acc, t :: rest)

/-- The `evalAndExpr` lambda. -/
def evalAndExpr (symTable : List TMacroDesc) (fuel : Nat) (ts : List Token) :
    EvalRes × List Token :=
  let u := evalEquality symTable fuel ts
  match u.1 with
  | .ok v => evalAndLoop symTable fuel v u.2
  | _ => u

/-- The `while` loop of `evalOrExpr`; `result || evalAndExpr()`
short-circuits, so a nonzero accumulator repeats without consuming. -/
def evalOrLoop (symTable : List TMacroDesc) : Nat → Int → List Token → EvalRes × List Token
  | _, _, [] => (.ubEval, [])
  | fuel, acc, t :: rest =>
    if t.ttype = .OR then
      match fuel with
      | 0 => (.fuelOut, t :: rest)
      | n + 1 =>
        if acc = 0 then
          let u := evalAndExpr symTable n (t :: rest)
          match u.1 with
          | .ok v => evalOrLoop symTable n (if v = 0 then 0 else 1) u.2
          | _ => u
        else
          evalOrLoop symTable n 1 (t :: rest)
    else
      (.ok acc, t :: rest)

/-- The `evalOrExpr` lambda. -/
def evalOrExpr (symTable : List TMacroDesc) (fuel : Nat) (ts : List Token) :
    EvalRes × List Token :=
  let u := evalAndExpr symTable fuel ts
  match u.1 with
  | .ok v => evalOrLoop symTable fuel v u.2
  | _ => u

/-- `Preprocessor::_evaluateExpression`: append the `END` sentinel and run
the recursive-descent chain from its lowest-precedence entry point. -/
def evaluateExpression (fuel : Nat) (exprTokens : List Token)
    (symTable : List TMacroDesc) : EvalRes :=
  let ts := exprTokens ++ [{ ttype := .END, rawView := [], lineId := 0 }]
  (evalOrExpr symTable fuel ts).1

/-- The state of a `Preprocessor` run: scanner state, symbol table,
expansion context, conditional stack, accumulated output and error
records, plus ghost fields.  `resolverCalls` records each invocation of
the host's include callback; `assertHit` records an executed
`TCPP_ASSERT(false)`; `ubBack` records the undefined
`processedStr.back()` read on an empty output; `ubMisc` records the
remaining undefined operations (`top()` of an empty conditional stack,
out-of-range argument indexing, undefined evaluator results); `hangPP`
records fuel exhaustion of a preprocessor token loop the C++ would never
leave. -/
structure PPState where
  lexer : LexerState
  symTable : List TMacroDesc
  contextStack : List (List Char)
  condStack : List TIfStackEntry
  output : List Char
  errors : List (EErrorType × Nat)
  resolverCalls : List (List Char × Bool)
  assertHit : Bool
  ubBack : Bool
  ubMisc : Bool
  hangPP : Bool
  deriving DecidableEq

/-- The include-callback type: path and `is_system` flag to an optional
stream text (`TOnIncludeCallback`, with `IInputStream*` reduced to the
text the stream would produce). -/
def Resolver : Type := List Char → Bool → Option (List Char)

/-- Record an error, mirroring `mOnErrorCallback({type, GetCurrLineIndex()})`. -/
def ppError (e : EErrorType) (s : PPState) : PPState :=
  { s with errors := s.errors ++ [(e, s.lexer.currLineIndex)] }

/-- `Preprocessor::_shouldTokenBeSkipped`: the conditional stack is
nonempty and its top frame is marked skipped. -/
def shouldTokenBeSkipped (s : PPState) : Bool :=
  match s.condStack with
  | [] => false
  | e :: _ => e.mShouldBeSkipped

/-- The `appendString` lambda of `Preprocessor::Process`: append to the
output unless the skip predicate holds. -/
def appendString (str : List Char) (s : PPState) : PPState :=
  if shouldTokenBeSkipped s then s else { s with output := s.output ++ str }

/-- Pull one token through the embedded scanner. -/
def ppNext (s : PPState) : Token × PPState :=
  let r := lexNext s.lexer
  (r.1, { s with lexer := r.2 })

/-- `Preprocessor::_expect`: record `UNEXPECTED_TOKEN` on a kind mismatch
and continue. -/
def expectTok (expected actual : ETokenType) (s : PPState) : PPState :=
  if expected = actual then s else ppError .UNEXPECTED_TOKEN s

/-- Fuel bound for one preprocessor token loop: every iteration that the
C++ loop completes consumes scanner input, so the scanner fuel bound plus
slack covers it. -/
def ppFuel (s : PPState) : Nat :=
  lexFuel s.lexer + 8

/-- A `while (GetNextToken().mType == SPACE);` skip loop. -/
def skipSpaces : Nat → PPState → Token × PPState
  | 0, s => (eofToken, { s with hangPP := true })
  | fuel + 1, s =>
    let r := ppNext s
    if r.1.ttype = .SPACE then skipSpaces fuel r.2 else r

/-- The `while (GetNextToken().mType == NEWLINE);` loop on the
invalid-include error path. -/
def skipNewlines : Nat → PPState → Token × PPState
  | 0, s => (eofToken, { s with hangPP := true })
  | fuel + 1, s =>
    let r := ppNext s
    if r.1.ttype = .NEWLINE then skipNewlines fuel r.2 else r

/-- A `while (GetNextToken().mType != NEWLINE) collect;` loop, returning
the collected tokens, the final token (the newline on a completed run)
and the state. -/
def collectUntilNewline : Nat → PPState → List Token × Token × PPState
  | 0, s => ([], eofToken, { s with hangPP := true })
  | fuel + 1, s =>
    let r := ppNext s
    if r.1.ttype = .NEWLINE then ([], r.1, r.2)
    else
      let c := collectUntilNewline fuel r.2
      (r.1 :: c.1, c.2.1, c.2.2)

/-- The `extractValue` lambda of `Preprocessor::_createMacroDefinition`:
skip spaces, push the first non-space token unconditionally, then collect
until a newline (the source's emptiness fallback to a literal `1` is
unreachable because of that unconditional push, and is mirrored as the
dead branch it is); finally `_expect` the newline. -/
def extractValue (s : PPState) : List Token × PPState :=
  let r := skipSpaces (ppFuel s) s
  let c := collectUntilNewline (ppFuel r.2) r.2
  let value := r.1 :: c.1
  let value :=
    if value = [] then
      [{ ttype := .NUMBER, rawView := ['1'], lineId := c.2.2.lexer.currLineIndex }]
    else value
  (value, expectTok .NEWLINE c.2.1.ttype c.2.2)

/-- The parameter-list loop of `Preprocessor::_createMacroDefinition`:
skip spaces, `_expect` an identifier (pushing its text regardless), skip
spaces, stop at `)`, otherwise `_expect` a comma and repeat. -/
def defineArgsLoop : Nat → List (List Char) → PPState → List (List Char) × PPState
  | 0, acc, s => (acc, { s with hangPP := true })
  | fuel + 1, acc, s =>
    let r := skipSpaces (ppFuel s) s
    let s1 := expectTok .IDENTIFIER r.1.ttype r.2
    let acc := acc ++ [r.1.rawView]
    let r2 := skipSpaces (ppFuel s1) s1
    if r2.1.ttype = .CLOSE_BRACKET then (acc, r2.2)
    else defineArgsLoop fuel acc (expectTok .COMMA r2.1.ttype r2.2)

/-- `Preprocessor::_createMacroDefinition`. -/
def createMacroDefinition (s : PPState) : PPState :=
  let r1 := ppNext s
  let s1 := expectTok .SPACE r1.1.ttype r1.2
  let r2 := ppNext s1
  let s2 := expectTok .IDENTIFIER r2.1.ttype r2.2
  let name := r2.1.rawView
  let r3 := ppNext s2
  let d : List Token × List (List Char) × PPState :=
    match r3.1.ttype with
    | .SPACE =>
      let e := extractValue r3.2
      (e.1, [], e.2)
    | .NEWLINE =>
      ([{ ttype := .NUMBER, rawView := ['1'], lineId := r3.2.lexer.currLineIndex }], [], r3.2)
    | .OPEN_BRACKET =>
      let a := defineArgsLoop (ppFuel r3.2) [] r3.2
      let e := extractValue a.2
      (e.1, a.1, e.2)
    | _ => ([], [], ppError .INVALID_MACRO_DEFINITION r3.2)
  let s3 := d.2.2
  if shouldTokenBeSkipped s3 then s3
  else if symContains s3.symTable name then ppError .MACRO_ALREADY_DEFINED s3
  else { s3 with symTable := s3.symTable ++ [{ mName := name, mArgsNames := d.2.1, mValue := d.1 }] }

/-- Erase the first symbol-table entry with the given name
(`mSymTable.erase(iter)` after `std::find_if`). -/
def eraseFirstSym (name : List Char) : List TMacroDesc → List TMacroDesc
  | [] => []
  | m :: rest => if m.mName = name then rest else m :: eraseFirstSym name rest

/-- `Preprocessor::_removeMacroDefinition`: a no-op under an inactive
frame; `UNDEFINED_MACRO` error when absent; otherwise erase and `_expect`
the trailing newline. -/
def removeMacroDefinitionPP (name : List Char) (s : PPState) : PPState :=
  if shouldTokenBeSkipped s then s
  else if ¬ symContains s.symTable name then ppError .UNDEFINED_MACRO_ERR s
  else
    let s1 := { s with symTable := eraseFirstSym name s.symTable }
    let r := ppNext s1
    expectTok .NEWLINE r.1.ttype r.2

/-- The inner token loop of one macro argument: starting from an already
fetched token, collect tokens until a comma, newline or closing bracket,
returning the collected tokens, the terminator and the state. -/
def argTokensLoop : Nat → Token → PPState → List Token × Token × PPState
  | 0, t, s => ([], t, { s with hangPP := true })
  | fuel + 1, t, s =>
    if t.ttype = .COMMA || t.ttype = .NEWLINE || t.ttype = .CLOSE_BRACKET then
      ([], t, s)
    else
      let r := ppNext s
      let w := argTokensLoop fuel r.1 r.2
      (t :: w.1, w.2.1, w.2.2)

/-- The argument-capture loop of `Preprocessor::_expandMacroDefinition`:
per argument, skip spaces and push the first token unconditionally, skip
spaces, collect to a terminator, `_expect` a comma when the terminator is
a newline, and stop at the closing bracket. -/
def expandArgLoop : Nat → List (List Token) → PPState → List (List Token) × PPState
  | 0, acc, s => (acc, { s with hangPP := true })
  | fuel + 1, acc, s =>
    let r1 := skipSpaces (ppFuel s) s
    let r2 := skipSpaces (ppFuel r1.2) r1.2
    let w := argTokensLoop (ppFuel r2.2) r2.1 r2.2
    let fin := w.2.1
    let s3 :=
      if fin.ttype ≠ .COMMA ∧ fin.ttype ≠ .CLOSE_BRACKET then
        expectTok .COMMA fin.ttype w.2.2
      else w.2.2
    let acc := acc ++ [r1.1 :: w.1]
    if fin.ttype = .CLOSE_BRACKET then (acc, s3)
    else expandArgLoop fuel acc s3

/-- The substitution pass of `Preprocessor::_expandMacroDefinition`:
walk the captured arguments by index, joining each argument's raw views
and rewriting every identifier body token equal to the corresponding
parameter name.  The source indexes `argsList[currArgIndex]` without a
bound check, so captured arguments beyond the parameter count are the
undefined read recorded in `ubMisc`. -/
def substLoop : List (List Char) → List (List Token) → List Token → PPState →
    List Token × PPState
  | _, [], repl, s => (repl, s)
  | [], _ :: _, repl, s => (repl, { s with ubMisc := true })
  | an :: ans, argToks :: more, repl, s =>
    let rv := (argToks.map (fun t => t.rawView)).flatten
    let repl := repl.map (fun t =>
      if t.ttype = .IDENTIFIER ∧ t.rawView = an then { t with rawView := rv } else t)
    substLoop ans more repl s

/-- `Preprocessor::_expandMacroDefinition`.  An object-like macro returns
the built-in `__LINE__` blob or its stored body unchanged — note: with no
context push and no reject sentinel.  A function-like macro pushes its
name on the expansion context, captures arguments, substitutes, and
appends the `REJECT_MACRO` sentinel. -/
def expandMacroDefinition (desc : TMacroDesc) (idToken : Token) (s : PPState) :
    List Token × PPState :=
  if desc.mArgsNames = [] then
    if desc.mName = "__LINE__".data then
      ([{ ttype := .BLOB, rawView := (Nat.repr idToken.lineId).data, lineId := 0 }], s)
    else
      (desc.mValue, s)
  else
    let s0 := { s with contextStack := s.contextStack ++ [desc.mName] }
    let r := ppNext s0
    let s1 := expectTok .OPEN_BRACKET r.1.ttype r.2
    let a := expandArgLoop (ppFuel s1) [] s1
    let s2 :=
      if a.1.length ≠ desc.mArgsNames.length then ppError .INCONSISTENT_MACRO_ARITY a.2
      else a.2
    let sub := substLoop desc.mArgsNames a.1 desc.mValue s2
    (sub.1 ++ [{ ttype := .REJECT, rawView := desc.mName, lineId := 0 }], sub.2)

/-- The path-accumulation loop of `Preprocessor::_processInclusion`. -/
def includePathLoop : Nat → List Char → PPState → List Char × PPState
  | 0, acc, s => (acc, { s with hangPP := true })
  | fuel + 1, acc, s =>
    let r := ppNext s
    if r.1.ttype = .QUOTES || r.1.ttype = .GREATER then (acc, r.2)
    else if r.1.ttype = .NEWLINE then (acc, ppError .UNEXPECTED_END_OF_INCLUDE_PATH r.2)
    else includePathLoop fuel (acc ++ r.1.rawView) r.2

/-- `Preprocessor::_processInclusion`: skip spaces, require `<` or `"`,
accumulate the path to the closing delimiter, expect the end of line,
then call the host's resolver (the call is recorded in `resolverCalls`);
a `none` answer executes `TCPP_ASSERT(false)` and returns, a stream is
pushed onto the scanner stack.  The source consults no conditional-stack
state anywhere in this function, nor at its call site. -/
def processInclusion (resolver : Resolver) (s : PPState) : PPState :=
  let r := skipSpaces (ppFuel s) s
  if r.1.ttype ≠ .LESS ∧ r.1.ttype ≠ .QUOTES then
    let r2 := skipNewlines (ppFuel r.2) r.2
    ppError .INVALID_INCLUDE_DIRECTIVE r2.2
  else
    let isSystem : Bool := decide (r.1.ttype = .LESS)
    let p := includePathLoop (ppFuel r.2) [] r.2
    let r3 := skipSpaces (ppFuel p.2) p.2
    let s3 := expectTok .NEWLINE r3.1.ttype r3.2
    let s4 := { s3 with resolverCalls := s3.resolverCalls ++ [(p.1, isSystem)] }
    match resolver p.1 isSystem with
    | none => { s4 with assertHit := true }
    | some content => { s4 with lexer := pushStream content s4.lexer }

/-- Turn an evaluator verdict into the `mShouldBeSkipped` flag
(`!_evaluateExpression(...)`), recording the undefined or diverging
evaluator outcomes on the state. -/
def evalSkips (exprTokens : List Token) (s : PPState) : Bool × PPState :=
  match evaluateExpression (exprTokens.length * 8 + 64) exprTokens s.symTable with
  | .ok v => (v = 0, s)
  | .divZero => (true, { s with ubMisc := true })
  | .ubEval => (true, { s with ubMisc := true })
  | .fuelOut => (true, { s with hangPP := true })

/-- `Preprocessor::_processIfConditional`: expect a space, collect the
expression to the newline, and start a frame skipped iff the expression
evaluates to zero. -/
def processIfConditional (s : PPState) : TIfStackEntry × PPState :=
  let r := ppNext s
  let s1 := expectTok .SPACE r.1.ttype r.2
  let c := collectUntilNewline (ppFuel s1) s1
  let s2 := expectTok .NEWLINE c.2.1.ttype c.2.2
  let e := evalSkips c.1 s2
  ({ mShouldBeSkipped := e.1, mHasElseBeenFound := false }, e.2)

/-- `Preprocessor::_processIfdefConditional`: the frame starts skipped iff
the named macro is absent. -/
def processIfdefConditional (s : PPState) : TIfStackEntry × PPState :=
  let r1 := ppNext s
  let s1 := expectTok .SPACE r1.1.ttype r1.2
  let r2 := ppNext s1
  let s2 := expectTok .IDENTIFIER r2.1.ttype r2.2
  let r3 := ppNext s2
  let s3 := expectTok .NEWLINE r3.1.ttype r3.2
  ({ mShouldBeSkipped := ¬ symContains s3.symTable r2.1.rawView, mHasElseBeenFound := false }, s3)

/-- `Preprocessor::_processIfndefConditional`: the frame starts skipped
iff the named macro is present. -/
def processIfndefConditional (s : PPState) : TIfStackEntry × PPState :=
  let r1 := ppNext s
  let s1 := expectTok .SPACE r1.1.ttype r1.2
  let r2 := ppNext s1
  let s2 := expectTok .IDENTIFIER r2.1.ttype r2.2
  let r3 := ppNext s2
  let s3 := expectTok .NEWLINE r3.1.ttype r3.2
  ({ mShouldBeSkipped := symContains s3.symTable r2.1.rawView, mHasElseBeenFound := false }, s3)

/-- `Preprocessor::_processElseConditional`: error after a previous
`#else`; otherwise flip `mShouldBeSkipped` and set `mHasElseBeenFound`. -/
def processElseConditional (entry : TIfStackEntry) (s : PPState) : TIfStackEntry × PPState :=
  if entry.mHasElseBeenFound then (entry, ppError .ANOTHER_ELSE_BLOCK_FOUND s)
  else ({ mShouldBeSkipped := ¬ entry.mShouldBeSkipped, mHasElseBeenFound := true }, s)

/-- `Preprocessor::_processElifConditional`: error after `#else`
(consuming nothing); otherwise collect the expression and set
`mShouldBeSkipped` to the pure negation of its value — the function keeps
no record of whether an earlier branch of the block was taken. -/
def processElifConditional (entry : TIfStackEntry) (s : PPState) : TIfStackEntry × PPState :=
  if entry.mHasElseBeenFound then (entry, ppError .ELIF_BLOCK_AFTER_ELSE_FOUND s)
  else
    let r := ppNext s
    let s1 := expectTok .SPACE r.1.ttype r.2
    let c := collectUntilNewline (ppFuel s1) s1
    let s2 := expectTok .NEWLINE c.2.1.ttype c.2.2
    let e := evalSkips c.1 s2
    ({ entry with mShouldBeSkipped := e.1 }, e.2)

/-- The `switch (currToken.mType)` dispatch of `Preprocessor::Process`,
acting on the state after the token was fetched.  No custom directive
handlers are registered in the runs studied here, so the
`CUSTOM_DIRECTIVE` lookup takes the source's `UNDEFINED_DIRECTIVE`
path. -/
def dispatchTok (resolver : Resolver) (t : Token) (s0 : PPState) : PPState :=
  match t.ttype with
    | .DEFINE => createMacroDefinition s0
    | .UNDEF =>
      let r2 := ppNext s0
      let s2 := expectTok .IDENTIFIER r2.1.ttype r2.2
      removeMacroDefinitionPP r2.1.rawView s2
    | .IF =>
      let e := processIfConditional s0
      { e.2 with condStack := e.1 :: e.2.condStack }
    | .IFNDEF =>
      let e := processIfndefConditional s0
      { e.2 with condStack := e.1 :: e.2.condStack }
    | .IFDEF =>
      let e := processIfdefConditional s0
      { e.2 with condStack := e.1 :: e.2.condStack }
    | .ELIF =>
      match s0.condStack with
      | [] => { s0 with ubMisc := true }
      | e :: rest =>
        let u := processElifConditional e s0
        { u.2 with condStack := u.1 :: rest }
    | .ELSE =>
      match s0.condStack with
      | [] => { s0 with ubMisc := true }
      | e :: rest =>
        let u := processElseConditional e s0
        { u.2 with condStack := u.1 :: rest }
    | .ENDIF =>
      match s0.condStack with
      | [] => ppError .UNBALANCED_ENDIF s0
      | _ :: rest => { s0 with condStack := rest }
    | .INCLUDE => processInclusion resolver s0
    | .IDENTIFIER =>
      match s0.symTable.find? (fun m => m.mName = t.rawView) with
      | some desc =>
        if s0.contextStack.any (fun n => n = t.rawView) then
          appendString t.rawView s0
        else
          let e := expandMacroDefinition desc t s0
          { e.2 with lexer := appendFront e.1 e.2.lexer }
      | none => appendString t.rawView s0
    | .REJECT =>
      { s0 with contextStack := s0.contextStack.filter (fun n => n ≠ t.rawView) }
    | .CONCAT_OP =>
      let s2 :=
        match s0.output.getLast? with
        | none => { s0 with ubBack := true }
        | some c => if c = ' ' then { s0 with output := s0.output.dropLast } else s0
      let r2 := skipSpaces (ppFuel s2) s2
      appendString r2.1.rawView r2.2
    | .STRINGIZE_OP =>
      let r2 := ppNext s0
      appendString r2.1.rawView r2.2
    | .CUSTOM_DIRECTIVE => ppError .UNDEFINED_DIRECTIVE s0
    | _ => appendString t.rawView s0

/-- One iteration of the `while (mpLexer->HasNextToken())` loop of
`Preprocessor::Process`: fetch one token, dispatch on its kind, then pop
the active stream if the scanner is exhausted. -/
def processStep (resolver : Resolver) (s : PPState) : PPState :=
  let r := ppNext s
  let s1 := dispatchTok resolver r.1 r.2
  if hasNextTokenB s1.lexer then s1 else { s1 with lexer := popStream s1.lexer }

/-- The fueled `while (HasNextToken())` driver of `Preprocessor::Process`;
`none` means the fuel ran out before the loop finished. -/
def processLoop (resolver : Resolver) : Nat → PPState → Option PPState
  | 0, _ => none
  | n + 1, s =>
    match hasNextTokenB s.lexer with
    | true => processLoop resolver n (processStep resolver s)
    | false => some s

/-- The state the `Preprocessor` constructor builds: a fresh scanner over
the root input and a symbol table pre-seeded with `__LINE__`. -/
def initState (input : List Char) : PPState :=
  { lexer := initLexer input,
    symTable := [{ mName := "__LINE__".data, mArgsNames := [], mValue := [] }],
    contextStack := [], condStack := [], output := [],
    errors := [], resolverCalls := [],
    assertHit := false, ubBack := false, ubMisc := false, hangPP := false }

/-- A full `Process()` run from a root input. -/
def processRun (input : List Char) (resolver : Resolver) (fuel : Nat) : Option PPState :=
  processLoop resolver fuel (initState input)

/-- The output text of a completed run. -/
def processOutput (input : List Char) (resolver : Resolver) (fuel : Nat) :
    Option (List Char) :=
  (processRun input resolver fuel).map (fun s => s.output)

/-- The recorded include-resolver invocations of a completed run. -/
def processCallsOut (input : List Char) (resolver : Resolver) (fuel : Nat) :
    Option (List (List Char × Bool)) :=
  (processRun input resolver fuel).map (fun s => s.resolverCalls)

/-- Whether a completed run executed `TCPP_ASSERT(false)`. -/
def processAssertOut (input : List Char) (resolver : Resolver) (fuel : Nat) :
    Option Bool :=
  (processRun input resolver fuel).map (fun s => s.assertHit)

/-- Whether a completed run read `processedStr.back()` on an empty output. -/
def processUbBackOut (input : List Char) (resolver : Resolver) (fuel : Nat) :
    Option Bool :=
  (processRun input resolver fuel).map (fun s => s.ubBack)

/-- A host whose include callback always declines. -/
def noIncludeResolver : Resolver := fun _ _ => none

/-- A host whose include callback always supplies the same stream text. -/
def constResolver (content : List Char) : Resolver := fun _ _ => some content

/-- The self-referencing object-like definition `#define A A` followed by
a use of `A`. -/
def selfrefInput : List Char := "#define A A\nA".data

/-- The state after the two loop iterations that process the definition
and the first expansion of `A` on `selfrefInput`: the scanner queue holds
the replacement token `A` again, and from here each further iteration
reproduces this state exactly. -/
def selfrefState : PPState :=
  processStep noIncludeResolver (processStep noIncludeResolver (initState selfrefInput))

/-- The name of the one pre-seeded macro. -/
def lineName : List Char := "__LINE__".data

/-- Characters on which the scanner is a plain tokenizer: not `#` (no
directives or `#`/`##` operators), not `/` (no comment stripping), not a
backslash (no line joining), and whitespace restricted to the space and
newline the scanner reproduces verbatim. -/
def plainChar (c : Char) : Bool :=
  !(c = '#') && !(c = '/') && !(c = '\\') && (!(cIsSpace c) || c = ' ' || c = '\n')

/-- Characters the scanner accumulates into a running blob: everything
the classifying branches of `_scanTokens` pass over. -/
def blobChar (c : Char) : Bool :=
  !(c = '\n') && !(cIsSpace c) && !(c = '#') && !(cIsDigit c) && !(cIsAlpha c)
    && !(c = '_') && !(separators.contains c)

/-- No space directly followed by another space (the collapsing pass of
`_requestSourceLine` would drop the second). -/
def noDoubleSpace : List Char → Bool
  | [] => true
  | [_] => true
  | a :: b :: t => !(a = ' ' && b = ' ') && noDoubleSpace (b :: t)

/-- The text does not end in the digit `0` (a lone trailing `0` makes the
scanner read `front()` of an emptied line — undefined behaviour). -/
def lastNotZero (l : List Char) : Bool :=
  match l.getLast? with
  | some c => !(c = '0')
  | none => true

/-- Token kinds that the `Process` dispatch sends to the default
append-raw-text case (plus `IDENTIFIER`, whose expansion attempt falls
through to the same append when the name is not in the symbol table). -/
def plainKind (ty : ETokenType) : Bool :=
  match ty with
  | .IDENTIFIER | .SPACE | .BLOB | .NUMBER | .KEYWORD | .NEWLINE
  | .OPEN_BRACKET | .CLOSE_BRACKET | .COMMA | .LESS | .GREATER | .QUOTES
  | .PLUS | .MINUS | .STAR | .SLASH | .AND | .OR | .AMPERSAND | .VLINE
  | .LSHIFT | .RSHIFT | .NOT | .GE | .LE | .EQ | .NE => true
  | _ => false

/-- A token that the main loop simply appends: a plain kind, nonempty raw
text, and — for identifiers — not the one pre-seeded macro name. -/
def plainTok (t : Token) : Prop :=
  plainKind t.ttype = true ∧ t.rawView ≠ [] ∧ (t.ttype = .IDENTIFIER → t.rawView ≠ lineName)

/-- Every character is plain. -/
def plainChars (l : List Char) : Prop := ∀ c ∈ l, plainChar c = true

/-- The hypothesis of the amended idempotence claim: no `#`, `/` or
backslash characters, whitespace restricted to single spaces and
newlines, no occurrence of `__LINE__`, no trailing `0`, and fewer than
256 digits in total (a run of 256 digits overflows the scanner's
`uint8_t` erase counter and rescans its tail). -/
def PlainInput (x : List Char) : Prop :=
  plainChars x ∧ noDoubleSpace x = true ∧ findSubIdx lineName x = none ∧
    lastNotZero x = true ∧ (x.filter (fun c => cIsDigit c)).length < 256

instance (x : List Char) : Decidable (PlainInput x) := by
  unfold PlainInput plainChars
  infer_instance

/-- Run invariant for the amended idempotence claim: the output together
with the pending text (queued raw views, working line, remaining stream)
reassembles the root input, every pending part is plain, and the
preprocessor state is the untouched initial one. -/
def C8Inv (x : List Char) (s : PPState) : Prop :=
  ∃ st,
    (s.lexer.streams = [st] ∨ (s.lexer.streams = [] ∧ st = [])) ∧
    s.output ++ (s.lexer.tokensQueue.map Token.rawView).flatten
      ++ s.lexer.currLine ++ st = x ∧
    (∀ t ∈ s.lexer.tokensQueue, plainTok t) ∧
    plainChars s.lexer.currLine ∧ plainChars st ∧
    noDoubleSpace st = true ∧
    findSubIdx lineName s.lexer.currLine = none ∧
    findSubIdx lineName st = none ∧
    lastNotZero s.lexer.currLine = true ∧ lastNotZero st = true ∧
    (s.lexer.currLine.filter (fun c => cIsDigit c)).length
      + (st.filter (fun c => cIsDigit c)).length < 256 ∧
    s.lexer.customDirectives = [] ∧
    s.symTable = [{ mName := lineName, mArgsNames := [], mValue := [] }] ∧
    s.condStack = []

/-- Termination measure for the plain-input run: queued tokens weighted
by their raw length, plus twice the unscanned characters. -/
def c8Measure (s : PPState) : Nat :=
  (s.lexer.tokensQueue.map (fun t => 1 + t.rawView.length)).sum
    + 2 * (s.lexer.currLine.length + (s.lexer.streams.map List.length).sum)

end Tcpp

namespace Tcpp

/-- On `selfrefState` the main loop has a next token (the requeued `A`). -/
theorem selfref_hasNext : hasNextTokenB selfrefState.lexer = true := by decide

/-- One loop iteration from `selfrefState` returns exactly to
`selfrefState`: expanding the object-like macro `A` requeues its body
token `A` with no context entry and no reject sentinel. -/
theorem selfref_fix : processStep noIncludeResolver selfrefState = selfrefState := by decide

/-- From the looping state, no amount of fuel finishes the run. -/
theorem selfref_loop_none :
    ∀ n, processLoop noIncludeResolver n selfrefState = none := by
  intro n
  induction n with
  | zero => rfl
  | succ m ih =>
    have h1 : processLoop noIncludeResolver (m + 1) selfrefState
        = processLoop noIncludeResolver m (processStep noIncludeResolver selfrefState) := rfl
    rw [h1, selfref_fix, ih]

/-- C1: claimed, no token inside an inner conditional block of a region
whose outer frame is inactive reaches the output.  In the code,
`_shouldTokenBeSkipped` consults only the top of the conditional stack and
the inner `#if 1` frame is pushed unskipped even under the inactive outer
`#if 0`, so the inner branch text `b` is emitted: the whole output of this
run is exactly `"b\n"`. -/
theorem c1_nested_inactive_leak :
    processOutput "#if 0\na\n#if 1\nb\n#endif\n#endif".data noIncludeResolver 64
      = some "b\n".data := by decide

/-- C2: claimed, at most one branch of a `#if`/`#elif` block contributes
output.  In the code, `_processElifConditional` sets `mShouldBeSkipped`
from the `#elif` expression alone (there is no any-branch-taken record),
so after the taken `#if 1` branch the `#elif 1` branch is also emitted:
the output contains both `one` and `two`. -/
theorem c2_elif_double_branch :
    processOutput "#if 1\none\n#elif 1\ntwo\n#endif".data noIncludeResolver 64
      = some "one\ntwo\n".data := by decide

/-- C3: claimed, `defined(X)` evaluates to `1` when `X` is in the symbol
table.  In the code, an identifier followed by `(` is routed to the
`evalCall` stub, which returns `0` unconditionally; with `X` present the
expression `defined(X)` therefore evaluates to `0`, not `1`. -/
theorem c3_defined_present_evaluates_zero :
    evaluateExpression 64
      [{ ttype := .IDENTIFIER, rawView := "defined".data, lineId := 1 },
       { ttype := .OPEN_BRACKET, rawView := "(".data, lineId := 1 },
       { ttype := .IDENTIFIER, rawView := "X".data, lineId := 1 },
       { ttype := .CLOSE_BRACKET, rawView := ")".data, lineId := 1 }]
      [{ mName := "__LINE__".data, mArgsNames := [], mValue := [] },
       { mName := "X".data, mArgsNames := [], mValue := [{ ttype := .NUMBER, rawView := "1".data, lineId := 1 }] }]
      = .ok 0 := by decide

/-- C4: claimed, a division whose right operand evaluates to `0` makes
`_evaluateExpression` return `0` without signalling.  In the code the
`evalMultiplication` division is unguarded, so the expression `1/0`
executes an integer division by zero — undefined behaviour, modelled as
`EvalRes.divZero` — rather than returning `0`. -/
theorem c4_division_by_zero_undefined :
    evaluateExpression 64
      [{ ttype := .NUMBER, rawView := "1".data, lineId := 1 },
       { ttype := .SLASH, rawView := "/".data, lineId := 1 },
       { ttype := .NUMBER, rawView := "0".data, lineId := 1 }]
      [] = .divZero := by decide

/-- C5: claimed, expanding a macro whose body names the macro itself
terminates because of the reject sentinel.  In the code the object-like
branch of `_expandMacroDefinition` returns the stored body with no
context entry and no `REJECT_MACRO` sentinel, so `#define A A` followed
by `A` requeues `A` forever: after two loop iterations the processor
state repeats exactly (`selfref_fix`), and no fuel bound completes the
run. -/
theorem c5_selfref_macro_diverges :
    ∀ fuel, processOutput selfrefInput noIncludeResolver fuel = none := by
  intro fuel
  match fuel with
  | 0 => rfl
  | 1 => rfl
  | n + 2 =>
    have h : processLoop noIncludeResolver (n + 2) (initState selfrefInput)
        = processLoop noIncludeResolver n selfrefState := rfl
    show (processLoop noIncludeResolver (n + 2) (initState selfrefInput)).map _ = none
    rw [h, selfref_loop_none n]
    rfl

/-- C6: claimed, the stringize operator appends the next token's raw text
surrounded by double quotes, so that `#define FOO(Name) #Name` with
`FOO(Text)` yields `" \"Text\""`.  In the code the `STRINGIZE_OP` case of
`Process` appends the next token's raw text with no quotes at all: the
run produces `" Text"`. -/
theorem c6_stringize_no_quotes :
    processOutput "#define FOO(Name) #Name\n FOO(Text)".data noIncludeResolver 64
      = some " Text".data := by decide

/-- C7: claimed, an `#include` under an inactive conditional frame has no
effect and the resolver callback is not invoked.  In the code neither the
`INCLUDE` case of `Process` nor `_processInclusion` consults the skip
predicate, so the resolver is called (and its stream pushed) even inside
`#if 0`: the recorded call list of this run is `[("a", true)]`. -/
theorem c7_inactive_include_invokes_resolver :
    processCallsOut "#if 0\n#include <a>\n#endif".data (constResolver "Z".data) 64
      = some [("a".data, true)] := by decide

/-- C9 counterexample: claimed, when the resolver returns no stream the
engine never aborts on that path.  In the code the `nullptr` answer
executes `TCPP_ASSERT(false)`, which aborts every assertion-enabled
build; the run records the executed assertion. -/
theorem c9_null_resolver_assert_fires :
    processAssertOut "#include \"a\"\nB".data noIncludeResolver 64 = some true := by decide

/-- C9 amended: with assertions disabled (`NDEBUG`), inclusion fails
silently and processing continues — the token `B` after the failed
include is still emitted (while the same run records that
`TCPP_ASSERT(false)` was executed, which is the assertion-enabled
abort). -/
theorem c9_null_resolver_ndebug_continues :
    processOutput "#include \"a\"\nB".data noIncludeResolver 64 = some "B".data := by decide

/-- C10: claimed, `Process` stays well defined when the first appended
token is a `##` operator with the output still empty.  In the code the
`CONCAT_OP` case reads `processedStr.back()` without an emptiness check;
on the input `##x` the read happens with `processedStr` empty — an
undefined read, recorded by the `ubBack` flag of this completed run. -/
theorem c10_concat_empty_output_ub :
    processUbBackOut "##x".data noIncludeResolver 64 = some true := by decide

/-- C8 counterexample: claimed, `process` returns every directive-free,
macro-free input unchanged.  The whitespace-collapsing pass of
`_requestSourceLine` drops the second of two consecutive spaces, so the
input `a  b` — which contains no `#` and no defined macro name — comes
back as `a b`, not unchanged. -/
theorem c8_double_space_counterexample :
    processOutput "a  b".data noIncludeResolver 64 = some "a b".data
      ∧ "a b".data ≠ "a  b".data := by
  constructor
  · decide
  · decide

/-- The prefix test agrees with `List.IsPrefix`. -/
theorem leadsWith_iff (p l : List Char) : leadsWith p l = true ↔ p <+: l := by
  induction p generalizing l with
  | nil => simp [leadsWith]
  | cons a ps ih =>
    cases l with
    | nil => simp [leadsWith]
    | cons c cs =>
      simp [leadsWith, ih, List.cons_prefix_cons]

/-- A prefix of a longer list is detected there as well. -/
theorem leadsWith_mono {p l l' : List Char} (h : leadsWith p l = true) (hl : l <+: l') :
    leadsWith p l' = true := by
  rw [leadsWith_iff] at h ⊢
  exact h.trans hl

/-- `findSubIdx` returns `none` exactly when the pattern occurs at no
position. -/
theorem findSubIdx_none_iff (p l : List Char) :
    findSubIdx p l = none ↔ ∀ i, ¬ (p <+: l.drop i) := by
  induction l with
  | nil =>
    simp only [findSubIdx, List.drop_nil]
    constructor
    · intro h i
      by_cases hp : p = [] <;> simp [hp] at h ⊢
    · intro h
      have := h 0
      by_cases hp : p = [] <;> simp [hp] at this ⊢
  | cons c cs ih =>
    cases hl : leadsWith p (c :: cs) with
    | true =>
      constructor
      · intro h
        exfalso
        simp [findSubIdx, hl] at h
      · intro h
        exact absurd ((leadsWith_iff _ _).mp hl) (by simpa using h 0)
    | false =>
      have hrw : findSubIdx p (c :: cs) = (findSubIdx p cs).map (· + 1) := by
        simp [findSubIdx, hl]
      rw [hrw, Option.map_eq_none', ih]
      constructor
      · intro h i
        cases i with
        | zero =>
          intro hp
          have : leadsWith p (c :: cs) = true :=
            (leadsWith_iff _ _).mpr (by simpa using hp)
          rw [hl] at this
          exact Bool.false_ne_true this
        | succ j => simpa using h j
      · intro h j
        simpa using h (j + 1)

/-- Absence of the pattern passes to any suffix. -/
theorem findSubIdx_none_suffix {p l l' : List Char}
    (h : findSubIdx p l = none) (hs : l' <:+ l) : findSubIdx p l' = none := by
  rw [findSubIdx_none_iff] at h ⊢
  intro i hp
  obtain ⟨t, rfl⟩ := hs
  refine h (t.length + i) ?_
  rw [← List.drop_drop, List.drop_left]
  exact hp

/-- Absence of the pattern passes to any prefix. -/
theorem findSubIdx_none_pref {p l l' : List Char}
    (h : findSubIdx p l = none) (hs : l' <+: l) : findSubIdx p l' = none := by
  rw [findSubIdx_none_iff] at h ⊢
  intro i hp
  obtain ⟨t, rfl⟩ := hs
  refine h i (hp.trans ?_)
  rw [List.drop_append_eq_append_drop]
  exact List.prefix_append _ _

/-- A pattern with a head character absent from the text never occurs. -/
theorem findSubIdx_none_of_head_not_mem {p0 : Char} {ps l : List Char}
    (h : ∀ c ∈ l, c ≠ p0) : findSubIdx (p0 :: ps) l = none := by
  rw [findSubIdx_none_iff]
  intro i hp
  obtain ⟨t, ht⟩ := hp
  have hmem : p0 ∈ l := by
    have : p0 ∈ l.drop i := by rw [← ht]; simp
    exact List.mem_of_mem_drop this
  exact h p0 hmem rfl

/-- `findCharIdx` returns `none` exactly on absence. -/
theorem findCharIdx_none_iff (c : Char) (l : List Char) :
    findCharIdx c l = none ↔ c ∉ l := by
  induction l with
  | nil => simp [findCharIdx]
  | cons d ds ih =>
    by_cases hd : d = c
    · subst hd
      simp [findCharIdx]
    · have hcd : ¬ c = d := fun hc => hd hc.symm
      simp [findCharIdx, hd, Option.map_eq_none', ih, hcd]

/-- `noDoubleSpace` is the chain of no-adjacent-spaces. -/
theorem noDoubleSpace_iff_chain (l : List Char) :
    noDoubleSpace l = true ↔ l.Chain' (fun a b => ¬(a = ' ' ∧ b = ' ')) := by
  induction l with
  | nil => simp [noDoubleSpace]
  | cons a t ih =>
    cases t with
    | nil => simp [noDoubleSpace]
    | cons b t2 =>
      rw [List.chain'_cons, ← ih]
      simp [noDoubleSpace, and_comm, Classical.not_and_iff_or_not_not]
      tauto

/-- Dropping preserves `noDoubleSpace`. -/
theorem noDoubleSpace_drop {l : List Char} (h : noDoubleSpace l = true) (n : Nat) :
    noDoubleSpace (l.drop n) = true :=
  (noDoubleSpace_iff_chain _).mpr (((noDoubleSpace_iff_chain _).mp h).drop n)

/-- Taking preserves `noDoubleSpace`. -/
theorem noDoubleSpace_take {l : List Char} (h : noDoubleSpace l = true) (n : Nat) :
    noDoubleSpace (l.take n) = true :=
  (noDoubleSpace_iff_chain _).mpr (((noDoubleSpace_iff_chain _).mp h).take n)

/-- The last element of a nonempty suffix is the last element of the
whole list. -/
theorem getLast?_of_suffix {l l' : List Char} (hs : l' <:+ l) (hne : l' ≠ []) :
    l'.getLast? = l.getLast? := by
  obtain ⟨t, rfl⟩ := hs
  exact (List.getLast?_append_of_ne_nil _ hne).symm

/-- `lastNotZero` passes to suffixes. -/
theorem lastNotZero_suffix {l l' : List Char} (h : lastNotZero l = true) (hs : l' <:+ l) :
    lastNotZero l' = true := by
  by_cases hne : l' = []
  · subst hne; rfl
  · unfold lastNotZero at h ⊢
    rw [getLast?_of_suffix hs hne]
    exact h

/-- The digit count of a sublist is bounded by the whole list's. -/
theorem filter_length_le_of_sublist {l l' : List Char} (p : Char → Bool)
    (hs : List.Sublist l' l) : (l'.filter p).length ≤ (l.filter p).length :=
  (hs.filter p).length_le

/-- The `takeWhile` run is no longer than the total count of matching
characters. -/
theorem takeWhile_length_le_filter (p : Char → Bool) (l : List Char) :
    (l.takeWhile p).length ≤ (l.filter p).length := by
  induction l with
  | nil => simp
  | cons c cs ih =>
    by_cases hc : p c = true
    · simp [List.takeWhile_cons, List.filter_cons, hc, Nat.succ_le_succ ih]
    · simp [List.takeWhile_cons, List.filter_cons, hc]

/-- Dropping the `takeWhile` run leaves the `dropWhile` remainder. -/
theorem drop_length_takeWhile (p : Char → Bool) (l : List Char) :
    l.drop (l.takeWhile p).length = l.dropWhile p := by
  induction l with
  | nil => simp
  | cons c cs ih =>
    by_cases hc : p c = true <;>
      simp [List.takeWhile_cons, List.dropWhile_cons, hc, ih]

/-- Unpacking of the `plainChar` conjunction. -/
theorem plainChar_spec {c : Char} (h : plainChar c = true) :
    c ≠ '#' ∧ c ≠ '/' ∧ c ≠ '\\' ∧ (cIsSpace c = true → c = ' ' ∨ c = '\n') := by
  refine ⟨?_, ?_, ?_, ?_⟩
  · intro hc; subst hc; simp [plainChar] at h
  · intro hc; subst hc; simp [plainChar] at h
  · intro hc; subst hc; simp [plainChar] at h
  · intro hs
    by_cases h1 : c = ' '
    · exact Or.inl h1
    by_cases h2 : c = '\n'
    · exact Or.inr h2
    exfalso
    simp [plainChar, hs, h1, h2] at h

/-- A plain character is not a tab. -/
theorem plainChar_no_tab {c : Char} (h : plainChar c = true) : c ≠ '\t' := by
  intro hc
  subst hc
  rcases (plainChar_spec h).2.2.2 (by decide) with h' | h' <;> cases h'

/-- On a line with no `/`, the single-line-comment pass is the identity. -/
theorem removeSingleLineComment_id {l : List Char} (h : plainChars l) :
    removeSingleLineComment l = l := by
  unfold removeSingleLineComment
  rw [findSubIdx_none_of_head_not_mem (fun c hc => (plainChar_spec (h c hc)).2.1)]

/-- On a line with no backslash, the joining loop is the identity. -/
theorem joinBackslash_id {l : List Char} (h : plainChars l)
    (fuel : Nat) (ls : LexerState) : joinBackslash fuel l ls = (l, ls) := by
  have hn : findCharIdx '\\' l = none :=
    (findCharIdx_none_iff _ _).mpr (fun hm => (plainChar_spec (h _ hm)).2.2.1 rfl)
  cases fuel <;> simp [joinBackslash, hn]

/-- On a line with no `/`, the multi-line-comment pass is the identity. -/
theorem removeMultiLineComments_id {l : List Char} (h : plainChars l)
    (fuel : Nat) (ls : LexerState) : removeMultiLineComments fuel l ls = (l, ls) := by
  have hn : findSubIdx ['/', '*'] l = none :=
    findSubIdx_none_of_head_not_mem (fun c hc => (plainChar_spec (h c hc)).2.1)
  simp [removeMultiLineComments, hn]

/-- The collapsing pass keeps a tab-free, double-space-free line. -/
theorem collapse_go_id : ∀ (l : List Char) (prev : Bool),
    (∀ c ∈ l, c ≠ '\t') → noDoubleSpace l = true →
    (prev = true → ∀ c, l.head? = some c → c ≠ ' ') →
    collapseWs.go prev l = l := by
  intro l
  induction l with
  | nil => intro prev _ _ _; rfl
  | cons c cs ih =>
    intro prev htab hnd hprev
    have hct : c ≠ '\t' := htab c (by simp)
    have hws : (c = ' ' || c = '\t' : Bool) = decide (c = ' ') := by
      by_cases hc : c = ' ' <;> simp [hc, hct]
    have hndcs : noDoubleSpace cs = true := by
      cases cs with
      | nil => rfl
      | cons b t =>
        rw [noDoubleSpace_iff_chain] at hnd ⊢
        exact hnd.tail
    have htail : ∀ d ∈ cs, d ≠ '\t' := fun d hd => htab d (by simp [hd])
    cases hc : decide (c = ' ') with
    | false =>
      have hcs : ¬ (c = ' ') := of_decide_eq_false hc
      unfold collapseWs.go
      rw [hws, hc]
      simp only [Bool.false_and, Bool.and_false]
      cases prev <;>
        simp [ih false htail hndcs (fun h => absurd h (by simp)), hcs]
    | true =>
      have hcs : c = ' ' := of_decide_eq_true hc
      have hpv : prev = true → False := by
        intro hp
        exact hprev hp c rfl hcs
      have hnext : ∀ d, cs.head? = some d → d ≠ ' ' := by
        intro d hd hds
        cases cs with
        | nil => cases hd
        | cons b t =>
          simp at hd
          subst hd hds hcs
          simp [noDoubleSpace] at hnd
      unfold collapseWs.go
      rw [hws, hc]
      cases prev with
      | true => exact absurd rfl hpv
      | false =>
        simp only [Bool.and_false, Bool.false_eq_true, if_false]
        rw [ih true htail hndcs (fun _ => hnext)]

/-- `collapseWs` is the identity on plain double-space-free lines. -/
theorem collapseWs_id {l : List Char} (h : plainChars l) (hnd : noDoubleSpace l = true) :
    collapseWs l = l :=
  collapse_go_id l false (fun c hc => plainChar_no_tab (h c hc)) hnd
    (fun hf => absurd hf (by simp))

/-- The two halves of `readLine` reassemble the stream. -/
theorem readLine_append (s : List Char) : (readLine s).1 ++ (readLine s).2 = s := by
  unfold readLine
  cases findCharIdx '\n' s <;> simp

/-- The line read is a prefix of the stream. -/
theorem readLine_fst_pref (s : List Char) : (readLine s).1 <+: s := by
  unfold readLine
  cases findCharIdx '\n' s <;> simp [List.take_prefix]

/-- The remainder is a suffix of the stream. -/
theorem readLine_snd_suffix (s : List Char) : (readLine s).2 <:+ s := by
  unfold readLine
  cases findCharIdx '\n' s with
  | none => exact ⟨s, by simp⟩
  | some i => exact List.drop_suffix _ _

/-- A nonempty stream yields a nonempty line. -/
theorem readLine_fst_ne_nil {s : List Char} (h : s ≠ []) : (readLine s).1 ≠ [] := by
  unfold readLine
  cases findCharIdx '\n' s with
  | none => simpa using h
  | some i =>
    intro hnil
    rw [List.take_eq_nil_iff] at hnil
    rcases hnil with h1 | h1
    · exact absurd h1 (by omega)
    · exact h h1

/-- On a plain single stream, `_requestSourceLine` returns exactly the
next physical line and advances the line counter. -/
theorem requestSourceLine_plain {st : List Char} {ls : LexerState}
    (hstreams : ls.streams = [st]) (hne : st ≠ [])
    (hpc : plainChars st) (hnd : noDoubleSpace st = true) (fuel : Nat) :
    requestSourceLine fuel ls =
      ((readLine st).1,
       { ls with streams := [(readLine st).2], currLineIndex := ls.currLineIndex + 1 }) := by
  have hpcL : plainChars (readLine st).1 :=
    fun c hc => hpc c ((readLine_fst_pref st).subset hc)
  have hndL : noDoubleSpace (readLine st).1 = true := by
    unfold readLine
    cases h : findCharIdx '\n' st with
    | none => simpa using hnd
    | some i => exact noDoubleSpace_take hnd _
  have hb : hasNextLine st = true := by simp [hasNextLine, hne]
  unfold requestSourceLine
  rw [hstreams]
  simp [hb, removeSingleLineComment_id hpcL, joinBackslash_id hpcL, collapseWs_id hpcL hndL]

/-- A separator character scans to one plain punctuation token whose raw
text is exactly the consumed characters. -/
theorem scanSep_plain (c : Char) (rest : List Char) (lineIdx : Nat)
    (h : c ∈ separators) :
    (scanSeparatorTokens c rest lineIdx).1.rawView ++ (scanSeparatorTokens c rest lineIdx).2
        = c :: rest ∧
    plainTok (scanSeparatorTokens c rest lineIdx).1 ∧
    (scanSeparatorTokens c rest lineIdx).2 <:+ rest := by
  have hsuf : ∀ (d : Char) (r : List Char), r <:+ d :: r := fun d r => ⟨[d], rfl⟩
  fin_cases h <;>
    · simp only [scanSeparatorTokens]
      first
      | exact ⟨rfl, by constructor <;> simp [plainKind, lineName], List.suffix_refl _⟩
      | (split <;>
          first
          | exact ⟨rfl, by constructor <;> simp [plainKind, lineName], hsuf _ _⟩
          | exact ⟨rfl, by constructor <;> simp [plainKind, lineName], List.suffix_refl _⟩)

/-- A list is a suffix of itself with one element put in front. -/
theorem suffix_cons_self (d : Char) (r : List Char) : r <:+ d :: r := ⟨[d], rfl⟩

/-- On a plain line, one `_scanTokens` invocation produces a plain token
(plus at most a queued separator) whose raw texts are exactly the
consumed characters, leaving a suffix of the line. -/
theorem scan_plain (lineIdx : Nat) :
    ∀ (line currStr : List Char),
    plainChars line →
    (∀ c ∈ currStr, blobChar c = true) →
    findSubIdx lineName line = none →
    lastNotZero line = true →
    (line.filter (fun c => cIsDigit c)).length < 256 →
    (line = [] → currStr ≠ []) →
    ∃ pushed t rest,
      scanTokensAux lineIdx [] line currStr = .tok pushed t rest ∧
      t.rawView ++ (pushed.map Token.rawView).flatten ++ rest = currStr ++ line ∧
      plainTok t ∧ (∀ p ∈ pushed, plainTok p) ∧
      rest <:+ line := by
  intro line
  induction line with
  | nil =>
    intro currStr _ _ _ _ _ hne
    have hcs : currStr ≠ [] := hne rfl
    exact ⟨[], { ttype := .BLOB, rawView := currStr, lineId := lineIdx }, [],
      by simp [scanTokensAux, hcs], by simp, ⟨rfl, hcs, fun h => nomatch h⟩, by simp,
      List.suffix_refl _⟩
  | cons c rest0 ih =>
    intro currStr hpc hblob hnoline hlz hdig _
    have hpcc : plainChar c = true := hpc c (by simp)
    have hC := plainChar_spec hpcc
    have hpcr : plainChars rest0 := fun d hd => hpc d (by simp [hd])
    have hsufc : rest0 <:+ c :: rest0 := suffix_cons_self c rest0
    have hnoliner : findSubIdx lineName rest0 = none := findSubIdx_none_suffix hnoline hsufc
    have hlzr : lastNotZero rest0 = true := lastNotZero_suffix hlz hsufc
    have hdigr : (rest0.filter (fun d => cIsDigit d)).length < 256 :=
      Nat.lt_of_le_of_lt
        (filter_length_le_of_sublist _ (List.sublist_cons_self c rest0)) hdig
    by_cases hnl : c = '\n'
    · by_cases hcs : currStr = []
      · exact ⟨[], { ttype := .NEWLINE, rawView := ['\n'], lineId := lineIdx }, rest0,
          by simp [scanTokensAux, hnl, hcs], by simp [hnl, hcs],
          ⟨rfl, by simp, fun h => nomatch h⟩, by simp, hsufc⟩
      · exact ⟨[], { ttype := .BLOB, rawView := currStr, lineId := lineIdx }, c :: rest0,
          by simp [scanTokensAux, hnl, hcs], by simp, ⟨rfl, hcs, fun h => nomatch h⟩,
          by simp, List.suffix_refl _⟩
    by_cases hsp : cIsSpace c = true
    · have hc' : c = ' ' := by
        rcases hC.2.2.2 hsp with h | h
        · exact h
        · exact absurd h hnl
      by_cases hcs : currStr = []
      · exact ⟨[], { ttype := .SPACE, rawView := [' '], lineId := lineIdx }, rest0,
          by simp [scanTokensAux, hnl, hsp, hcs], by simp [hc', hcs],
          ⟨rfl, by simp, fun h => nomatch h⟩, by simp, hsufc⟩
      · exact ⟨[], { ttype := .BLOB, rawView := currStr, lineId := lineIdx }, c :: rest0,
          by simp [scanTokensAux, hnl, hsp, hcs], by simp, ⟨rfl, hcs, fun h => nomatch h⟩,
          by simp, List.suffix_refl _⟩
    have hhash : ¬ (c = '#') := hC.1
    by_cases hdg : cIsDigit c = true
    · by_cases hcs : currStr = []
      · by_cases h0 : c = '0'
        · cases hr : rest0 with
          | nil =>
            exfalso
            rw [hr] at hlz
            rw [h0] at hlz
            simp [lastNotZero] at hlz
          | cons r1 rrest =>
            have hdigrr : (rrest.filter (fun d => cIsDigit d)).length < 256 := by
              refine Nat.lt_of_le_of_lt (filter_length_le_of_sublist _ ?_) hdigr
              rw [hr]
              exact List.sublist_cons_self r1 rrest
            have hds : ((rrest.takeWhile (fun d => cIsDigit d)).length % 256) = (rrest.takeWhile (fun d => cIsDigit d)).length :=
              Nat.mod_eq_of_lt (Nat.lt_of_le_of_lt (takeWhile_length_le_filter _ _) hdigrr)
            by_cases hx : (r1 = 'x' || cIsDigit r1) = true
            · refine ⟨[], { ttype := .NUMBER, rawView := '0' :: r1 :: rrest.takeWhile (fun d => cIsDigit d), lineId := lineIdx }, rrest.drop ((rrest.takeWhile (fun d => cIsDigit d)).length % 256), ?_, ?_, ⟨rfl, by simp, fun h => nomatch h⟩, by simp, ?_⟩
              · simp [scanTokensAux, hcs, h0, hr, hx, show cIsSpace '0' = false from by decide, show cIsDigit '0' = true from by decide, show ¬('0' = '\n') from by decide, show ¬('0' = '#') from by decide]
              · rw [hds, hcs, h0]
                simp only [List.map_nil, List.flatten_nil, List.append_nil, List.nil_append, List.cons_append, List.cons.injEq, true_and]
                rw [drop_length_takeWhile, List.takeWhile_append_dropWhile]
              · rw [hds, drop_length_takeWhile]
                exact (List.dropWhile_suffix _).trans ((suffix_cons_self r1 rrest).trans (suffix_cons_self c _))
            · refine ⟨[], { ttype := .NUMBER, rawView := ['0'], lineId := lineIdx }, r1 :: rrest, ?_, ?_, ⟨rfl, by simp, fun h => nomatch h⟩, by simp, ?_⟩
              · simp [scanTokensAux, hcs, h0, hr, hx, show cIsSpace '0' = false from by decide, show cIsDigit '0' = true from by decide, show ¬('0' = '\n') from by decide, show ¬('0' = '#') from by decide]
              · rw [hcs, h0]
                simp
              · exact suffix_cons_self c _
        · have hds : (((c :: rest0).takeWhile (fun d => cIsDigit d)).length % 256) = ((c :: rest0).takeWhile (fun d => cIsDigit d)).length :=
            Nat.mod_eq_of_lt (Nat.lt_of_le_of_lt (takeWhile_length_le_filter _ _) hdig)
          refine ⟨[], { ttype := .NUMBER, rawView := (c :: rest0).takeWhile (fun d => cIsDigit d), lineId := lineIdx }, (c :: rest0).drop (((c :: rest0).takeWhile (fun d => cIsDigit d)).length % 256), ?_, ?_, ⟨rfl, by simp [List.takeWhile_cons, hdg], fun h => nomatch h⟩, by simp, ?_⟩
          · simp [scanTokensAux, hnl, hsp, hhash, hdg, hcs, h0]
          · rw [hds]
            simp only [List.map_nil, List.flatten_nil, List.append_nil, List.nil_append]
            rw [drop_length_takeWhile, List.takeWhile_append_dropWhile]
            simp [hcs]
          · rw [hds, drop_length_takeWhile]
            exact List.dropWhile_suffix _
      · exact ⟨[], { ttype := .BLOB, rawView := currStr, lineId := lineIdx }, c :: rest0,
          by simp [scanTokensAux, hnl, hsp, hhash, hdg, hcs], by simp,
          ⟨rfl, hcs, fun h => nomatch h⟩, by simp, List.suffix_refl _⟩
    by_cases hal : (c = '_' || cIsAlpha c) = true
    · by_cases hcs : currStr = []
      · have hpident : (cIsAlnum c || c = '_' : Bool) = true := by
          rcases Bool.or_eq_true_iff.mp hal with h | h
          · simp [h]
          · simp [cIsAlnum, h]
        have hne2 : (c :: rest0).takeWhile (fun d => cIsAlnum d || d = '_') ≠ [] := by
          simp [List.takeWhile_cons, hpident]
        have hpre : (c :: rest0).takeWhile (fun d => cIsAlnum d || d = '_') <+: (c :: rest0) :=
          List.takeWhile_prefix _
        have hnotline : (c :: rest0).takeWhile (fun d => cIsAlnum d || d = '_') ≠ lineName := by
          intro hEq
          rw [findSubIdx_none_iff] at hnoline
          refine hnoline 0 ?_
          rw [List.drop_zero, ← hEq]
          exact hpre
        refine ⟨[], { ttype := if keywordsList.contains ((c :: rest0).takeWhile (fun d => cIsAlnum d || d = '_')) then .KEYWORD else .IDENTIFIER, rawView := (c :: rest0).takeWhile (fun d => cIsAlnum d || d = '_'), lineId := lineIdx }, (c :: rest0).drop ((c :: rest0).takeWhile (fun d => cIsAlnum d || d = '_')).length, ?_, ?_, ?_, by simp, ?_⟩
        · simp [scanTokensAux, hnl, hsp, hhash, hdg, hal, hcs]
        · simp only [List.map_nil, List.flatten_nil, List.append_nil, List.nil_append]
          rw [drop_length_takeWhile, List.takeWhile_append_dropWhile]
          simp [hcs]
        · refine ⟨?_, hne2, fun _ => hnotline⟩
          by_cases hk : (c :: rest0).takeWhile (fun d => cIsAlnum d || d = '_') ∈ keywordsList <;>
            simp [hk, plainKind]
        · rw [drop_length_takeWhile]
          exact List.dropWhile_suffix _
      · exact ⟨[], { ttype := .BLOB, rawView := currStr, lineId := lineIdx }, c :: rest0,
          by simp [scanTokensAux, hnl, hsp, hhash, hdg, hal, hcs], by simp,
          ⟨rfl, hcs, fun h => nomatch h⟩, by simp, List.suffix_refl _⟩
    by_cases hsep : separators.contains c = true
    · have hmem : c ∈ separators := by simpa using hsep
      obtain ⟨hEq, hPl, hSuf⟩ := scanSep_plain c rest0 lineIdx hmem
      by_cases hcs : currStr = []
      · refine ⟨[], (scanSeparatorTokens c rest0 lineIdx).1, (scanSeparatorTokens c rest0 lineIdx).2, ?_, ?_, hPl, by simp, hSuf.trans hsufc⟩
        · simp [scanTokensAux, hnl, hsp, hhash, hdg, hal, hmem, hcs]
        · rw [hcs]
          simpa using hEq
      · refine ⟨[(scanSeparatorTokens c rest0 lineIdx).1], { ttype := .BLOB, rawView := currStr, lineId := lineIdx }, (scanSeparatorTokens c rest0 lineIdx).2, ?_, ?_, ⟨rfl, hcs, fun h => nomatch h⟩, by simpa using hPl, hSuf.trans hsufc⟩
        · simp [scanTokensAux, hnl, hsp, hhash, hdg, hal, hmem, hcs]
        · show ({ ttype := ETokenType.BLOB, rawView := currStr, lineId := lineIdx } : Token).rawView ++ ([(scanSeparatorTokens c rest0 lineIdx).1].map Token.rawView).flatten ++ (scanSeparatorTokens c rest0 lineIdx).2 = currStr ++ (c :: rest0)
          have hfl : (([(scanSeparatorTokens c rest0 lineIdx).1].map Token.rawView).flatten : List Char) = (scanSeparatorTokens c rest0 lineIdx).1.rawView := by simp
          rw [hfl]
          show currStr ++ (scanSeparatorTokens c rest0 lineIdx).1.rawView ++ (scanSeparatorTokens c rest0 lineIdx).2 = currStr ++ (c :: rest0)
          rw [List.append_assoc, hEq]
    · have hbc : blobChar c = true := by
        unfold blobChar
        simp only [Bool.and_eq_true, Bool.not_eq_true']
        refine ⟨⟨⟨⟨⟨⟨?_, ?_⟩, ?_⟩, ?_⟩, ?_⟩, ?_⟩, ?_⟩
        · simpa using hnl
        · simpa using hsp
        · simpa using hhash
        · simpa using hdg
        · have h : cIsAlpha c ≠ true := fun h => hal (by simp [h])
          simpa using h
        · have h : ¬ (c = '_') := fun h => hal (by simp [h])
          simpa using h
        · simpa using hsep
      have hrec := ih (currStr ++ [c]) hpcr
        (by intro d hd
            rcases List.mem_append.mp hd with h | h
            · exact hblob d h
            · simp at h
              rw [h]
              exact hbc)
        hnoliner hlzr hdigr (by simp)
      obtain ⟨pushed, t, rest, hscan, hEq, hPt, hPp, hSuf⟩ := hrec
      refine ⟨pushed, t, rest, ?_, ?_, hPt, hPp, hSuf.trans hsufc⟩
      · have hnmem : c ∉ separators := by simpa using hsep
        have hstep : scanTokensAux lineIdx [] (c :: rest0) currStr = scanTokensAux lineIdx [] rest0 (currStr ++ [c]) := by
          simp [scanTokensAux, hnl, hsp, hhash, hdg, hal, hnmem]
        rw [hstep, hscan]
      · rw [hEq]
        simp

/-- The prefix `readLine` cuts ends at the newline it found. -/
theorem findCharIdx_take {c : Char} : ∀ {l : List Char} {i : Nat},
    findCharIdx c l = some i → l.take (i + 1) = l.take i ++ [c] := by
  intro l
  induction l with
  | nil => intro i h; simp [findCharIdx] at h
  | cons d ds ih =>
    intro i h
    by_cases hd : d = c
    · rw [findCharIdx, if_pos hd] at h
      obtain rfl : (0 : Nat) = i := Option.some.inj h
      simp [hd]
    · rw [findCharIdx, if_neg hd] at h
      cases hj : findCharIdx c ds with
      | none => rw [hj] at h; simp at h
      | some j =>
        rw [hj] at h
        obtain rfl : j + 1 = i := by simpa using h
        simp [List.take_succ_cons, ih hj]

/-- A line read from a `0`-free-tailed stream does not end in `0`. -/
theorem readLine_fst_lastNotZero {s : List Char} (h : lastNotZero s = true) :
    lastNotZero (readLine s).1 = true := by
  unfold readLine
  cases hf : findCharIdx '\n' s with
  | none => exact h
  | some i =>
    show lastNotZero (s.take (i + 1)) = true
    rw [findCharIdx_take hf]
    unfold lastNotZero
    rw [List.getLast?_append_of_ne_nil _ (by simp)]
    decide

/-- The remainder of a double-space-free stream after a `readLine` is
double-space-free. -/
theorem readLine_snd_noDoubleSpace {s : List Char} (h : noDoubleSpace s = true) :
    noDoubleSpace (readLine s).2 = true := by
  unfold readLine
  cases findCharIdx '\n' s with
  | none => rfl
  | some i => exact noDoubleSpace_drop h (i + 1)

/-- Pulling a token when the lookahead queue is nonempty just pops it. -/
theorem lexNext_queue {ls : LexerState} {t : Token} {rest : List Token}
    (h : ls.tokensQueue = t :: rest) :
    lexNext ls = (t, { ls with tokensQueue := rest }) := by
  show getNextTokenF
      (4 * lexChars ls + 2 * ls.streams.length + ls.tokensQueue.length + 7 + 1) ls = _
  rw [getNextTokenF, h]

/-- Pulling a token with an empty queue and a nonempty plain working line
runs one `_scanTokens` call on it. -/
theorem lexNext_line {ls : LexerState}
    (hq : ls.tokensQueue = []) (hcl : ls.currLine ≠ [])
    (hdirs : ls.customDirectives = [])
    (hpc : plainChars ls.currLine)
    (hnoline : findSubIdx lineName ls.currLine = none)
    (hlz : lastNotZero ls.currLine = true)
    (hdig : (ls.currLine.filter (fun c => cIsDigit c)).length < 256) :
    ∃ pushed t rest,
      lexNext ls = (t, { ls with currLine := rest, tokensQueue := pushed }) ∧
      t.rawView ++ (pushed.map Token.rawView).flatten ++ rest = ls.currLine ∧
      plainTok t ∧ (∀ p ∈ pushed, plainTok p) ∧ rest <:+ ls.currLine := by
  obtain ⟨pushed, t, rest, hscan, hEq, hPt, hPp, hSuf⟩ :=
    scan_plain ls.currLineIndex ls.currLine [] hpc (by simp) hnoline hlz hdig
      (fun h => absurd h hcl)
  refine ⟨pushed, t, rest, ?_, hEq, hPt, hPp, hSuf⟩
  show getNextTokenF
      (4 * lexChars ls + 2 * ls.streams.length + ls.tokensQueue.length + 7 + 1) ls = _
  rw [getNextTokenF, hq]
  simp only [if_neg hcl, removeMultiLineComments_id hpc, hdirs]
  rw [hscan]
  simp [hq]

/-- Pulling a token with an empty queue and line requests the next line of
the single plain stream and scans its head. -/
theorem lexNext_stream {ls : LexerState} {st : List Char}
    (hq : ls.tokensQueue = []) (hcl : ls.currLine = [])
    (hstreams : ls.streams = [st]) (hne : st ≠ [])
    (hdirs : ls.customDirectives = [])
    (hpc : plainChars st) (hnd : noDoubleSpace st = true)
    (hnoline : findSubIdx lineName st = none)
    (hlz : lastNotZero st = true)
    (hdig : (st.filter (fun c => cIsDigit c)).length < 256) :
    ∃ pushed t rest,
      lexNext ls = (t, { ls with currLine := rest, tokensQueue := pushed, streams := [(readLine st).2], currLineIndex := ls.currLineIndex + 1 }) ∧
      t.rawView ++ (pushed.map Token.rawView).flatten ++ rest = (readLine st).1 ∧
      plainTok t ∧ (∀ p ∈ pushed, plainTok p) ∧ rest <:+ (readLine st).1 := by
  have hLpre : (readLine st).1 <+: st := readLine_fst_pref st
  have hLne : (readLine st).1 ≠ [] := readLine_fst_ne_nil hne
  have hpcL : plainChars (readLine st).1 := fun c hc => hpc c (hLpre.subset hc)
  have hnolineL : findSubIdx lineName (readLine st).1 = none :=
    findSubIdx_none_pref hnoline hLpre
  have hlzL : lastNotZero (readLine st).1 = true := readLine_fst_lastNotZero hlz
  have hdigL : ((readLine st).1.filter (fun c => cIsDigit c)).length < 256 :=
    Nat.lt_of_le_of_lt (filter_length_le_of_sublist _ hLpre.sublist) hdig
  obtain ⟨pushed, t, rest, hscan, hEq, hPt, hPp, hSuf⟩ :=
    scan_plain (ls.currLineIndex + 1) (readLine st).1 [] hpcL (by simp) hnolineL hlzL hdigL
      (fun h => absurd h hLne)
  refine ⟨pushed, t, rest, ?_, hEq, hPt, hPp, hSuf⟩
  show getNextTokenF
      (4 * lexChars ls + 2 * ls.streams.length + ls.tokensQueue.length + 7 + 1) ls = _
  rw [getNextTokenF, hq]
  simp only [if_pos hcl, requestSourceLine_plain hstreams hne hpc hnd, if_neg hLne,
    removeMultiLineComments_id hpcL, hdirs]
  rw [hscan]
  simp [hq]

/-- On a plain token, with the pristine symbol table (only `__LINE__`) and
no open conditional, the `Process` dispatch appends the token text. -/
theorem dispatchTok_plain {t : Token} {s0 : PPState} (resolver : Resolver)
    (hPt : plainTok t)
    (hsym : s0.symTable = [{ mName := lineName, mArgsNames := [], mValue := [] }])
    (hcond : s0.condStack = []) :
    dispatchTok resolver t s0 = { s0 with output := s0.output ++ t.rawView } := by
  obtain ⟨hk, hne, hid⟩ := hPt
  cases ht : t.ttype
  all_goals first
    | (rw [ht] at hk; exact absurd hk (by decide))
    | (simp [dispatchTok, ht, appendString, shouldTokenBeSkipped, hcond]; done)
    | (have hid' : ¬ (lineName = t.rawView) := fun h => hid ht h.symm
       simp [dispatchTok, ht, hsym, List.find?, hid', appendString,
         shouldTokenBeSkipped, hcond]
       done)

/-- A queue of tokens with nonempty texts weighs at most twice its total
text length. -/
theorem queue_weight_le (q : List Token) (h : ∀ p ∈ q, p.rawView ≠ []) :
    (q.map (fun t => 1 + t.rawView.length)).sum
      ≤ 2 * ((q.map Token.rawView).flatten).length := by
  induction q with
  | nil => simp
  | cons t ts ih =>
    have h1 : 1 ≤ t.rawView.length :=
      List.length_pos.mpr (h t (List.mem_cons_self t ts))
    have h2 := ih (fun p hp => h p (List.mem_cons_of_mem t hp))
    simp only [List.map_cons, List.sum_cons, List.flatten_cons, List.length_append]
    omega

/-- One `Process` iteration on a state whose scanner yields a plain token:
the token text is appended and the exhausted-stream pop is applied. -/
theorem processStep_plain {s : PPState} {t : Token} {ls2 : LexerState}
    (hlex : lexNext s.lexer = (t, ls2))
    (hPt : plainTok t)
    (hsym : s.symTable = [{ mName := lineName, mArgsNames := [], mValue := [] }])
    (hcond : s.condStack = []) :
    processStep noIncludeResolver s =
      (if hasNextTokenB ls2 = true
       then { s with lexer := ls2, output := s.output ++ t.rawView }
       else { s with lexer := popStream ls2, output := s.output ++ t.rawView }) := by
  have hd := @dispatchTok_plain t { s with lexer := ls2 } noIncludeResolver hPt hsym hcond
  simp only [processStep, ppNext, hlex, hd]

/-- Popping the exhausted stream at the end of an iteration preserves the
invariant and the measure. -/
theorem c8_pop {x : List Char} {s1 : PPState} (hInv : C8Inv x s1)
    (h : hasNextTokenB s1.lexer = false) :
    C8Inv x { s1 with lexer := popStream s1.lexer } ∧
    c8Measure { s1 with lexer := popStream s1.lexer } = c8Measure s1 := by
  obtain ⟨st, hstr, hdec, hqPl, hclPl, hstPl, hnd, hnlC, hnlS, hlzC, hlzS, hdig,
    hdirs, hsym, hcond⟩ := hInv
  have hstnil : st = [] := by
    rcases hstr with hstr | ⟨_, hstr⟩
    · by_contra hne
      rw [hasNextTokenB, hstr] at h
      simp [hasNextLine, hne] at h
    · exact hstr
  subst hstnil
  have htail : (popStream s1.lexer).streams = [] := by
    rcases hstr with hstr | ⟨hstr, _⟩ <;> simp [popStream, hstr]
  constructor
  · exact ⟨[], Or.inr ⟨htail, rfl⟩, hdec, hqPl, hclPl, hstPl, hnd, hnlC, hnlS,
      hlzC, hlzS, hdig, hdirs, hsym, hcond⟩
  · rcases hstr with hstr | ⟨hstr, _⟩ <;> simp [c8Measure, popStream, hstr]

/-- When the scanner is exhausted on an invariant state, the whole input
has been emitted. -/
theorem c8_terminal {x : List Char} {s : PPState} (hInv : C8Inv x s)
    (h : hasNextTokenB s.lexer = false) : s.output = x := by
  obtain ⟨st, hstr, hdec, _⟩ := hInv
  rcases hstr with hstr | ⟨hstr, hstnil⟩
  · rw [hasNextTokenB, hstr] at h
    simp only [hasNextLine, Bool.or_eq_false_iff, decide_eq_false_iff_not,
      Decidable.not_not] at h
    obtain ⟨⟨hst, hcl⟩, hq⟩ := h
    rw [hst, hcl, hq] at hdec
    simpa using hdec
  · rw [hasNextTokenB, hstr] at h
    simp only [Bool.false_or, Bool.or_eq_false_iff, decide_eq_false_iff_not,
      Decidable.not_not] at h
    obtain ⟨hcl, hq⟩ := h
    rw [hstnil, hcl, hq] at hdec
    simpa using hdec

/-- A state the loop still visits weighs at least one. -/
theorem c8Measure_pos {s : PPState} (h : hasNextTokenB s.lexer = true) :
    1 ≤ c8Measure s := by
  cases hq : s.lexer.tokensQueue with
  | cons t ts => simp [c8Measure, hq]; omega
  | nil =>
    cases hcl : s.lexer.currLine with
    | cons c cs => simp [c8Measure, hcl]; omega
    | nil =>
      cases hst : s.lexer.streams with
      | nil => rw [hasNextTokenB, hst, hq, hcl] at h; simp at h
      | cons top rest =>
        have htop : top ≠ [] := by
          intro h0
          rw [hasNextTokenB, hst, hq, hcl, h0] at h
          simp [hasNextLine] at h
        have h1 : 1 ≤ top.length := List.length_pos.mpr htop
        simp [c8Measure, hcl, hst]
        omega

/-- Folding lemma: an iteration that appends a plain token and preserves
the invariant on the pre-pop state settles one full `processStep`. -/
theorem c8_step_of {x : List Char} {s : PPState} {t : Token} {ls2 : LexerState}
    (hlex : lexNext s.lexer = (t, ls2))
    (hPt : plainTok t)
    (hsym : s.symTable = [{ mName := lineName, mArgsNames := [], mValue := [] }])
    (hcond : s.condStack = [])
    (hInv1 : C8Inv x { s with lexer := ls2, output := s.output ++ t.rawView })
    (hm1 : c8Measure { s with lexer := ls2, output := s.output ++ t.rawView }
      < c8Measure s) :
    C8Inv x (processStep noIncludeResolver s) ∧
    c8Measure (processStep noIncludeResolver s) < c8Measure s := by
  rw [processStep_plain hlex hPt hsym hcond]
  by_cases h : hasNextTokenB ls2 = true
  · rw [if_pos h]
    exact ⟨hInv1, hm1⟩
  · rw [if_neg h]
    obtain ⟨hI, hM⟩ := c8_pop hInv1 (Bool.eq_false_iff.mpr h)
    exact ⟨hI, Nat.lt_of_le_of_lt (Nat.le_of_eq hM) hm1⟩

/-- One iteration of the main loop preserves the plain-run invariant and
strictly decreases the measure. -/
theorem c8_step {x : List Char} {s : PPState} (hInv : C8Inv x s)
    (hnext : hasNextTokenB s.lexer = true) :
    C8Inv x (processStep noIncludeResolver s) ∧
    c8Measure (processStep noIncludeResolver s) < c8Measure s := by
  obtain ⟨st, hstr, hdec, hqPl, hclPl, hstPl, hnd, hnlC, hnlS, hlzC, hlzS, hdig,
    hdirs, hsym, hcond⟩ := hInv
  cases hq : s.lexer.tokensQueue with
  | cons t rest =>
    have hPt : plainTok t := hqPl t (by rw [hq]; exact List.mem_cons_self t rest)
    have hlex := lexNext_queue hq
    refine c8_step_of hlex hPt hsym hcond ⟨st, hstr, ?_, ?_, hclPl, hstPl, hnd,
      hnlC, hnlS, hlzC, hlzS, hdig, hdirs, hsym, hcond⟩ ?_
    · rw [hq] at hdec
      simp only [List.map_cons, List.flatten_cons] at hdec
      simpa [List.append_assoc] using hdec
    · intro p hp
      exact hqPl p (by rw [hq]; exact List.mem_cons_of_mem t hp)
    · have ht1 : 1 ≤ t.rawView.length := List.length_pos.mpr hPt.2.1
      simp only [c8Measure, hq, List.map_cons, List.sum_cons]
      omega
  | nil =>
    by_cases hcl : s.lexer.currLine = []
    · rcases hstr with hstr | ⟨hstr, hstnil⟩
      · have hne : st ≠ [] := by
          intro h0
          rw [hasNextTokenB, hstr, h0, hq, hcl] at hnext
          simp [hasNextLine] at hnext
        obtain ⟨pushed, t, rest, hlex, hEq, hPt, hPp, hSuf⟩ :=
          lexNext_stream hq hcl hstr hne hdirs hstPl hnd hnlS hlzS
            (Nat.lt_of_le_of_lt (Nat.le_add_left _ _) hdig)
        have hrsub : List.Sublist rest st :=
          hSuf.sublist.trans (readLine_fst_pref st).sublist
        have hsplit : (st.filter (fun c => cIsDigit c)).length
            = ((readLine st).1.filter (fun c => cIsDigit c)).length
              + ((readLine st).2.filter (fun c => cIsDigit c)).length := by
          conv_lhs => rw [← readLine_append st]
          simp [List.filter_append]
        have hlenL : (readLine st).1.length + (readLine st).2.length = st.length := by
          have := congrArg List.length (readLine_append st)
          simpa [List.length_append] using this
        have hlen := congrArg List.length hEq
        simp only [List.length_append] at hlen
        have hw := queue_weight_le pushed (fun p hp => (hPp p hp).2.1)
        have ht1 : 1 ≤ t.rawView.length := List.length_pos.mpr hPt.2.1
        refine c8_step_of hlex hPt hsym hcond ⟨(readLine st).2, Or.inl rfl, ?_,
          hPp, (fun c hc => hstPl c (hrsub.subset hc)),
          (fun c hc => hstPl c ((readLine_snd_suffix st).subset hc)),
          readLine_snd_noDoubleSpace hnd,
          findSubIdx_none_suffix (findSubIdx_none_pref hnlS (readLine_fst_pref st)) hSuf,
          findSubIdx_none_suffix hnlS (readLine_snd_suffix st),
          lastNotZero_suffix (readLine_fst_lastNotZero hlzS) hSuf,
          lastNotZero_suffix hlzS (readLine_snd_suffix st), ?_, hdirs, hsym, hcond⟩ ?_
        · rw [hq, hcl] at hdec
          simp only [List.map_nil, List.flatten_nil, List.append_nil,
            List.nil_append] at hdec
          rw [← hdec]
          conv_rhs => rw [← readLine_append st, ← hEq]
          simp [List.append_assoc]
        · have h1 : (rest.filter (fun c => cIsDigit c)).length
              ≤ ((readLine st).1.filter (fun c => cIsDigit c)).length :=
            filter_length_le_of_sublist _ hSuf.sublist
          rw [hcl] at hdig
          simp only [List.filter_nil, List.length_nil, Nat.zero_add] at hdig
          show (rest.filter (fun c => cIsDigit c)).length
              + ((readLine st).2.filter (fun c => cIsDigit c)).length < 256
          omega
        · show (pushed.map (fun t => 1 + t.rawView.length)).sum
              + 2 * (rest.length + ([(readLine st).2].map List.length).sum)
              < c8Measure s
          simp only [c8Measure, hq, hcl, hstr, List.map_nil, List.sum_nil,
            List.map_cons, List.sum_cons, List.length_nil]
          omega
      · rw [hasNextTokenB, hstr, hq, hcl] at hnext
        simp at hnext
    · obtain ⟨pushed, t, rest, hlex, hEq, hPt, hPp, hSuf⟩ :=
        lexNext_line hq hcl hdirs hclPl hnlC hlzC
          (Nat.lt_of_le_of_lt (Nat.le_add_right _ _) hdig)
      have hlen := congrArg List.length hEq
      simp only [List.length_append] at hlen
      have hw := queue_weight_le pushed (fun p hp => (hPp p hp).2.1)
      have ht1 : 1 ≤ t.rawView.length := List.length_pos.mpr hPt.2.1
      refine c8_step_of hlex hPt hsym hcond ⟨st, hstr, ?_, hPp,
        (fun c hc => hclPl c (hSuf.subset hc)), hstPl, hnd,
        findSubIdx_none_suffix hnlC hSuf, hnlS,
        lastNotZero_suffix hlzC hSuf, hlzS, ?_, hdirs, hsym, hcond⟩ ?_
      · rw [hq] at hdec
        simp only [List.map_nil, List.flatten_nil, List.append_nil,
          List.nil_append] at hdec
        rw [← hdec]
        conv_rhs => rw [← hEq]
        simp [List.append_assoc]
      · have h1 : (rest.filter (fun c => cIsDigit c)).length
            ≤ (s.lexer.currLine.filter (fun c => cIsDigit c)).length :=
          filter_length_le_of_sublist _ hSuf.sublist
        show (rest.filter (fun c => cIsDigit c)).length
            + (st.filter (fun c => cIsDigit c)).length < 256
        omega
      · simp only [c8Measure, hq, List.map_nil, List.sum_nil, List.map_cons,
          List.sum_cons]
        omega

/-- The loop finishes from any invariant state within measure-many
iterations, having emitted the whole input. -/
theorem c8_loop {x : List Char} : ∀ (n : Nat) (s : PPState), C8Inv x s → c8Measure s ≤ n →
    ∃ s2, processLoop noIncludeResolver (n + 1) s = some s2 ∧ s2.output = x := by
  intro n
  induction n with
  | zero =>
    intro s hInv hm
    cases hnx : hasNextTokenB s.lexer with
    | false =>
      refine ⟨s, ?_, c8_terminal hInv hnx⟩
      rw [processLoop, hnx]
    | true =>
      have := c8Measure_pos hnx
      omega
  | succ m ih =>
    intro s hInv hm
    cases hnx : hasNextTokenB s.lexer with
    | false =>
      refine ⟨s, ?_, c8_terminal hInv hnx⟩
      rw [processLoop, hnx]
    | true =>
      obtain ⟨hI, hM⟩ := c8_step hInv hnx
      obtain ⟨s2, hs2, ho⟩ := ih (processStep noIncludeResolver s) hI (by omega)
      refine ⟨s2, ?_, ho⟩
      rw [processLoop, hnx]
      exact hs2

/-- The freshly constructed preprocessor state satisfies the plain-run
invariant. -/
theorem c8Inv_init {x : List Char} (h : PlainInput x) : C8Inv x (initState x) := by
  obtain ⟨hpc, hnd, hnl, hlz, hdig⟩ := h
  refine ⟨x, Or.inl rfl, ?_, ?_, ?_, hpc, hnd, ?_, hnl, ?_, hlz, ?_, rfl, rfl, rfl⟩
  · simp [initState, initLexer]
  · intro t ht
    simp [initState, initLexer] at ht
  · intro c hc
    simp [initState, initLexer] at hc
  · show findSubIdx lineName ([] : List Char) = none
    decide
  · rfl
  · simpa [initState, initLexer] using hdig

/-- C8: amended.  The unqualified idempotence claim fails (for instance the
whitespace collapse of `_requestSourceLine` rewrites a double space), but
on plain input — no `#`, `/` or backslash, whitespace limited to single
spaces and newlines, no `__LINE__` occurrence, no trailing `0` and fewer
than 256 digits — a full `Process()` run with a declining include resolver
emits the input text unchanged. -/
theorem c8_plain_input_idempotent (x : List Char) (h : PlainInput x) :
    ∃ fuel, processOutput x noIncludeResolver fuel = some x := by
  obtain ⟨s2, hs2, ho⟩ := c8_loop (c8Measure (initState x)) (initState x)
    (c8Inv_init h) (Nat.le_refl _)
  refine ⟨c8Measure (initState x) + 1, ?_⟩
  unfold processOutput processRun
  rw [hs2]
  simp [ho]

/-- Witness for the amended C8 theorem at a concrete plain input. -/
theorem c8_plain_input_idempotent_witness :
    PlainInput "int a = 2;\nb\n".data ∧
    ∃ fuel, processOutput "int a = 2;\nb\n".data noIncludeResolver fuel
      = some "int a = 2;\nb\n".data :=
  ⟨by decide, c8_plain_input_idempotent _ (by decide)⟩

end Tcpp
